import Mathlib

/-!
Verification of the DNS-SD core of the `dogmatiq/dissolve` repository
(v0.5.0 line): name escaping (`instance.go` / `servicename.go`), attribute
sets and collections (`attributes.go`), record synthesis (`records.go`),
the authoritative unicast responder (`unicastserver.go`) and the unicast
resolver's server-iteration primitive (`unicastresolver.go`).

Strings are modelled as lists of characters (`Str`), Go maps as
association lists, and Go pointer identity of `dns.RR` values and of the
shared `serviceRecords` structs by explicit allocation identifiers
(`rid` for records, natural-number pointers into an explicit heap for
service entries).  All definitions are executable.
-/

namespace Dissolve

/-- Strings as character lists, so that the character-level loops of the
Go source (escaping, TXT parsing, key normalization) translate to
structural recursion. -/
abbrev Str := List Char

/-- Convert a Lean string literal to the character-list representation. -/
def str (s : String) : Str := s.toList

/-! ## Association lists (the model of Go maps) -/

/-- Lookup in an association list: first entry with the given key, the
model of Go map indexing. -/
def alookup {κ α : Type} [DecidableEq κ] : List (κ × α) → κ → Option α
  | [], _ => none
  | e :: rest, k => if e.1 = k then some e.2 else alookup rest k

/-- Map update `m[k] = v`: replace the first entry with key `k`, or
append a new entry. -/
def aset {κ α : Type} [DecidableEq κ] : List (κ × α) → κ → α → List (κ × α)
  | [], k, v => [(k, v)]
  | e :: rest, k, v => if e.1 = k then (k, v) :: rest else e :: aset rest k v

/-- Map deletion `delete(m, k)`: drop every entry with key `k` (on the
no-duplicate-key lists that model Go maps this is exactly one entry). -/
def aerase {κ α : Type} [DecidableEq κ] (l : List (κ × α)) (k : κ) : List (κ × α) :=
  l.filter (fun e => if e.1 = k then false else true)

/-! ## Name and escape utilities (`instance.go` / part_010) -/

/-- The runes that `EscapeInstance` must escape: the constant
`needsEscape` of the source. -/
def needsEscape : Str := ['.', ' ', '\'', '@', ';', '(', ')', '"', '\\']

/-- EscapeInstance: prepend a backslash to every rune of the instance
label that occurs in `needsEscape`. -/
def escapeInstance : Str → Str
  | [] => []
  | c :: rest =>
    if c ∈ needsEscape then '\\' :: c :: escapeInstance rest
    else c :: escapeInstance rest

/-- The loop of `ParseInstance`: walk the characters with an escape flag;
a backslash sets the flag and is not emitted, the character after it is
emitted literally, and an unescaped dot terminates the label, the rest of
the input becoming the tail.  `acc` holds the emitted characters in
reverse. -/
def parseInstanceLoop : List Char → Bool → Str → Except String (Str × Str)
  | [], true, _ => .error "name is terminated with an escape character"
  | [], false, acc => .ok (acc.reverse, [])
  | c :: rest, true, acc => parseInstanceLoop rest false (c :: acc)
  | c :: rest, false, acc =>
    if c = '\\' then parseInstanceLoop rest true acc
    else if c = '.' then .ok (acc.reverse, rest)
    else parseInstanceLoop rest false (c :: acc)

/-- ParseInstance: parse the escaped `<instance>` portion of a service
instance name, returning the unescaped label and the unparsed tail. -/
def parseInstance (name : Str) : Except String (Str × Str) :=
  parseInstanceLoop name false []

/-- Scan a label with the escape flag and report whether it contains a
dot that is not preceded by an escaping backslash. -/
def hasUnescapedDot : List Char → Bool → Bool
  | [], _ => false
  | _ :: rest, true => hasUnescapedDot rest false
  | c :: rest, false =>
    if c = '\\' then hasUnescapedDot rest true
    else if c = '.' then true
    else hasUnescapedDot rest false

/-- InstanceEnumerationDomain: `<service>.<domain>` (no trailing dot). -/
def instanceEnumerationDomain (service domain : Str) : Str :=
  service ++ '.' :: domain

/-- TypeEnumerationDomain: `_services._dns-sd._udp.<domain>`. -/
def typeEnumerationDomain (domain : Str) : Str :=
  str "_services._dns-sd._udp." ++ domain

/-- SelectiveInstanceEnumerationDomain: `<sub>._sub.<service>.<domain>`. -/
def selectiveInstanceEnumerationDomain (subType service domain : Str) : Str :=
  subType ++ str "._sub." ++ instanceEnumerationDomain service domain

/-- AbsoluteInstanceEnumerationDomain: the instance enumeration domain
with its trailing dot, the key of the responder's `services` map. -/
def absoluteInstanceEnumerationDomain (service domain : Str) : Str :=
  instanceEnumerationDomain service domain ++ ['.']

/-- AbsoluteServiceInstanceName: escaped instance label joined to the
instance enumeration domain (no trailing dot). -/
def absoluteServiceInstanceName (inst serviceType domain : Str) : Str :=
  escapeInstance inst ++ '.' :: instanceEnumerationDomain serviceType domain

/-! ## Attribute sets and collections (`attributes.go`) -/

/-- Attributes: the set of attributes of one TXT record.  The Go map
`m : map[string][]byte` (with `nil` marking a flag) becomes an
association list from normalized key to `Option` value: `none` is a
flag, `some v` a key/value pair (`v` may be empty). -/
structure Attributes where
  entries : List (Str × Option Str)
deriving DecidableEq

/-- Normalize one character of an attribute key: reject `=` and
non-printable characters, lowercase ASCII letters (`ch += 'a' - 'A'`). -/
def normalizeAttributeChar (c : Char) : Except String Char :=
  if c = '=' then .error "key must not contain an equals character"
  else if c.toNat < 0x20 ∨ 0x7E < c.toNat then
    .error "key must contain only printable ASCII characters"
  else if 'A' ≤ c ∧ c ≤ 'Z' then .ok (Char.ofNat (c.toNat + 32))
  else .ok c

/-- The character loop of `normalizeAttributeKey`: build the normalized
key left to right, aborting on the first invalid character. -/
def normalizeKeyChars : Str → Except String Str
  | [] => .ok []
  | c :: rest =>
    match normalizeAttributeChar c with
    | .error e => .error e
    | .ok c2 =>
      match normalizeKeyChars rest with
      | .error e => .error e
      | .ok rest2 => .ok (c2 :: rest2)

/-- normalizeAttributeKey: reject the empty key, then normalize each
character, aborting on the first invalid one. -/
def normalizeAttributeKey (k : Str) : Except String Str :=
  if k = [] then .error "key must not be empty"
  else normalizeKeyChars k

/-- Map insertion on an attribute set (`m[k] = v` inside `mutate`). -/
def Attributes.insert (a : Attributes) (k : Str) (v : Option Str) : Attributes :=
  ⟨aset a.entries k v⟩

/-- IsEmpty: true when the set holds no attributes. -/
def Attributes.isEmpty (a : Attributes) : Bool := a.entries.isEmpty

/-- The index of the first `=` in a string, Go's
`strings.IndexByte(pair, '=')` (with `none` for `-1`). -/
def eqSignIdx : Str → Option Nat
  | [] => none
  | c :: rest => if c = '=' then some 0 else (eqSignIdx rest).map (· + 1)

/-- WithTXT: parse a single TXT record string.  The empty string and
strings beginning with `=` are ignored (`present = false`); a string
without `=` becomes a flag; otherwise the string splits at the first `=`
into key and value.  The key is normalized, failing on invalid keys. -/
def Attributes.withTXT (a : Attributes) (pair : Str) :
    Except String (Attributes × Bool) :=
  if pair = [] then .ok (a, false)
  else
    match eqSignIdx pair with
    | some 0 => .ok (a, false)
    | none =>
      match normalizeAttributeKey pair with
      | .error e => .error e
      | .ok k => .ok (a.insert k none, true)
    | some n =>
      match normalizeAttributeKey (pair.take n) with
      | .error e => .error e
      | .ok k => .ok (a.insert k (some (pair.drop (n + 1))), true)

/-- The pinned version-tag key of RFC 6763 §6.7. -/
def txtvers : Str := str "txtvers"

/-- Lexicographic (byte-wise) string comparison, Go's `<` on strings. -/
def lexLt : Str → Str → Bool
  | _, [] => false
  | [], _ :: _ => true
  | a :: as, b :: bs => if a < b then true else if a = b then lexLt as bs else false

/-- The comparator of `ToTXT`'s sort: `txtvers` first, then keys in
ascending lexicographic order. -/
def entryLess (a b : Str × Option Str) : Bool :=
  if a.1 = txtvers then true
  else if b.1 = txtvers then false
  else lexLt a.1 b.1

/-- Ordered insertion for the deterministic sort of `ToTXT`. -/
def insertByLess (x : Str × Option Str) :
    List (Str × Option Str) → List (Str × Option Str)
  | [] => [x]
  | y :: ys => if entryLess x y then x :: y :: ys else y :: insertByLess x ys

/-- Sort the attribute entries with `entryLess`.  The Go source sorts an
arbitrarily-ordered slice drawn from the map with `sort.Slice`; on the
duplicate-free key sets of a reachable attribute set the comparator is a
strict total order, so the result is the same. -/
def sortEntries (l : List (Str × Option Str)) : List (Str × Option Str) :=
  l.foldr insertByLess []

/-- Render one attribute as it appears in the TXT record: `key` for a
flag, `key=value` for a pair. -/
def renderAttribute (e : Str × Option Str) : Str :=
  match e.2 with
  | none => e.1
  | some v => e.1 ++ '=' :: v

/-- ToTXT: the deterministic string list of the attribute set. -/
def Attributes.toTXT (a : Attributes) : List Str :=
  (sortEntries a.entries).map renderAttribute

/-- Equal on attribute sets: same size, and every key of `a` is present
in `b` with the same flag/pair variant and the same value bytes. -/
def Attributes.equal (a b : Attributes) : Bool :=
  (a.entries.length == b.entries.length) &&
  a.entries.all fun e =>
    match alookup b.entries e.1 with
    | none => false
    | some v2 => (e.2.isNone == v2.isNone) && (e.2.getD [] == v2.getD [])

/-- Fold WithTXT over a list of TXT strings, threading the set through
the `Except` monad (the round-trip of RFC 6763 attribute encoding). -/
def foldWithTXT (a : Attributes) (strs : List Str) : Except String Attributes :=
  strs.foldlM (fun acc s => (acc.withTXT s).map Prod.fst) a

/-- The loop of `AttributeCollection.Get`, already running over the
reversed collection: return the first set (scanning right to left in the
original) in which the key is a pair; flags and absent keys are skipped
because the Go code tests `v != nil`. -/
def findPairValue (k : Str) : List Attributes → Option Str
  | [] => none
  | a :: rest =>
    match alookup a.entries k with
    | some (some v) => some v
    | _ => findPairValue k rest

/-- AttributeCollection.Get: normalize the key (the `must` variant of the
source panics on an invalid key, modelled by the `Except` error), then
scan the sets from last to first for a pair with that key.  `some v`
models the `(v, true)` return, `none` the `(nil, false)` return. -/
def collectionGet (c : List Attributes) (k : Str) : Except String (Option Str) :=
  match normalizeAttributeKey k with
  | .error e => .error e
  | .ok k2 => .ok (findPairValue k2 c.reverse)

/-! ## DNS records and record synthesis (`records.go`) -/

def TypeA : Nat := 1
def TypePTR : Nat := 12
def TypeTXT : Nat := 16
def TypeAAAA : Nat := 28
def TypeSRV : Nat := 33
def TypeANY : Nat := 255
def ClassINET : Nat := 1
def ClassANY : Nat := 255
def RcodeSuccess : Nat := 0
def RcodeNameError : Nat := 3

/-- The rdata of the record kinds the toolkit emits. -/
inductive RData
  | ptr (target : Str)
  | srv (priority weight port : Nat) (target : Str)
  | txt (strs : List Str)
  | a (ip : List Nat)
  | aaaa (ip : List Nat)
deriving DecidableEq

/-- A DNS resource record: header (owner name, rrtype, class, TTL) plus
rdata.  Equality of `RR` values models equality of the `String()`
wire-format rendering used by the responder's idempotence check: the
rendering is determined by, and determines, these fields. -/
structure RR where
  name : Str
  rrtype : Nat
  rclass : Nat
  ttl : Nat
  rdata : RData
deriving DecidableEq

/-- ServiceInstance (v0.5.0): the embedded name triple, target host and
port, SRV priority/weight, the attribute collection and the TTL.  The
TTL is a Go `time.Duration` in nanoseconds. -/
structure ServiceInstance where
  name : Str
  serviceType : Str
  domain : Str
  targetHost : Str
  targetPort : Nat
  priority : Nat
  weight : Nat
  attributes : List Attributes
  ttl : Int
deriving DecidableEq

/-- The resolved advertise options: IP addresses from `WithIPAddress`
and sub-types from `WithServiceSubType`, in call order. -/
structure AdvertiseOptions where
  ipAddresses : List (List Nat)
  serviceSubTypes : List Str
deriving DecidableEq

/-- One second as a Go `time.Duration`. -/
def second : Int := 1000000000

/-- DefaultTTL: two minutes. -/
def defaultTTL : Int := 120 * second

/-- Whole seconds of a positive duration, converted to `uint32`. -/
def durationSeconds (d : Int) : Nat := (d.toNat / 1000000000) % 4294967296

/-- ttlInSeconds: the TTL as whole seconds; non-positive durations are
replaced by the default TTL. -/
def ttlInSeconds (ttl : Int) : Nat :=
  if ttl ≤ 0 then durationSeconds defaultTTL else durationSeconds ttl

/-- An IP address as its byte sequence (length 4 or 16 when valid). -/
abbrev IPAddr := List Nat

/-- The 12-byte header marking an IPv4 address embedded in IPv6 form. -/
def v4InV6Header : List Nat := [0, 0, 0, 0, 0, 0, 0, 0, 0, 0, 255, 255]

/-- net.IP.To4: a 4-byte address as is; a 16-byte IPv4-in-IPv6 address
as its last four bytes; otherwise nil. -/
def ipTo4 (ip : IPAddr) : Option IPAddr :=
  if ip.length = 4 then some ip
  else if ip.length = 16 ∧ ip.take 12 = v4InV6Header then some (ip.drop 12)
  else none

/-- net.IP.To16: a 4-byte address in IPv4-in-IPv6 form; a 16-byte
address as is; otherwise nil. -/
def ipTo16 (ip : IPAddr) : Option IPAddr :=
  if ip.length = 4 then some (v4InV6Header ++ ip)
  else if ip.length = 16 then some ip
  else none

/-- NewPTRRecord: the instance-enumeration PTR of a service instance. -/
def newPTRRecord (i : ServiceInstance) : RR :=
  { name := instanceEnumerationDomain i.serviceType i.domain ++ ['.']
    rrtype := TypePTR
    rclass := ClassINET
    ttl := ttlInSeconds i.ttl
    rdata := .ptr (absoluteServiceInstanceName i.name i.serviceType i.domain ++ ['.']) }

/-- NewSRVRecord: the SRV record of a service instance. -/
def newSRVRecord (i : ServiceInstance) : RR :=
  { name := absoluteServiceInstanceName i.name i.serviceType i.domain ++ ['.']
    rrtype := TypeSRV
    rclass := ClassINET
    ttl := ttlInSeconds i.ttl
    rdata := .srv i.priority i.weight i.targetPort (i.targetHost ++ ['.']) }

/-- The shared TXT header of `NewTXTRecords`, completed with a string
list. -/
def txtRecordWith (i : ServiceInstance) (strs : List Str) : RR :=
  { name := absoluteServiceInstanceName i.name i.serviceType i.domain ++ ['.']
    rrtype := TypeTXT
    rclass := ClassINET
    ttl := ttlInSeconds i.ttl
    rdata := .txt strs }

/-- NewTXTRecords: one TXT record per non-empty attribute set; if that
yields none, a single TXT record holding one empty string. -/
def newTXTRecords (i : ServiceInstance) : List RR :=
  let records := (i.attributes.filter (fun a => !a.isEmpty)).map
    (fun a => txtRecordWith i a.toTXT)
  if records.isEmpty then [txtRecordWith i [[]]] else records

/-- NewServiceSubTypePTRRecord: the selective-enumeration PTR. -/
def newServiceSubTypePTRRecord (i : ServiceInstance) (subType : Str) : RR :=
  { name := selectiveInstanceEnumerationDomain subType i.serviceType i.domain ++ ['.']
    rrtype := TypePTR
    rclass := ClassINET
    ttl := ttlInSeconds i.ttl
    rdata := .ptr (absoluteServiceInstanceName i.name i.serviceType i.domain ++ ['.']) }

/-- NewARecord: the A record at `TargetHost.`; `none` models the panic
on an address that is not IPv4. -/
def newARecord (i : ServiceInstance) (ip : IPAddr) : Option RR :=
  (ipTo4 ip).map fun ip4 =>
    { name := i.targetHost ++ ['.']
      rrtype := TypeA
      rclass := ClassINET
      ttl := ttlInSeconds i.ttl
      rdata := .a ip4 }

/-- NewAAAARecord: the AAAA record at `TargetHost.`; `none` models the
panics on an IPv4 address and on an invalid address. -/
def newAAAARecord (i : ServiceInstance) (ip : IPAddr) : Option RR :=
  if (ipTo4 ip).isSome then none
  else (ipTo16 ip).map fun ip16 =>
    { name := i.targetHost ++ ['.']
      rrtype := TypeAAAA
      rclass := ClassINET
      ttl := ttlInSeconds i.ttl
      rdata := .aaaa ip16 }

/-- NewServiceTypePTRRecord: the reference-counted PTR announcing a
service type under the type-enumeration domain. -/
def newServiceTypePTRRecord (serviceType domain : Str) (ttl : Int) : RR :=
  { name := typeEnumerationDomain domain ++ ['.']
    rrtype := TypePTR
    rclass := ClassINET
    ttl := ttlInSeconds ttl
    rdata := .ptr (instanceEnumerationDomain serviceType domain ++ ['.']) }

/-- The per-address branch of `NewRecords`: an A record when the address
passes the To4 test, otherwise an AAAA record when it passes To16,
otherwise nothing. -/
def ipAddressRecords (i : ServiceInstance) (ip : IPAddr) : List RR :=
  if (ipTo4 ip).isSome then (newARecord i ip).toList
  else if (ipTo16 ip).isSome then (newAAAARecord i ip).toList
  else []

/-- NewRecords: the full record set announcing a service instance:
instance PTR, SRV, the TXT records, one PTR per sub-type and the
A/AAAA records of the option-supplied addresses. -/
def newRecords (i : ServiceInstance) (opts : AdvertiseOptions) : List RR :=
  [newPTRRecord i, newSRVRecord i]
    ++ newTXTRecords i
    ++ opts.serviceSubTypes.map (newServiceSubTypePTRRecord i)
    ++ opts.ipAddresses.flatMap (ipAddressRecords i)

/-! ## The authoritative unicast responder (`unicastserver.go`)

Go compares `dns.RR` values by pointer identity when removing them from
the index (`x != rr`) and by wire-format string equality in the
idempotence check (`x.String() == rr.String()`).  A stored record is
therefore a content record `RR` tagged with an allocation identifier
`rid`; identifiers are drawn from a counter in the server state, so two
allocations never share one, exactly like Go pointers. -/

/-- A record allocation: pointer identity `rid` plus record content. -/
structure TRR where
  rid : Nat
  rr : RR
deriving DecidableEq

/-- The two-level record index: owner name, then rrtype, then the slice
of records. -/
abbrev RecordIndex := List (Str × List (Nat × List TRR))

/-- The records stored at `(owner, rrtype)`; absent keys read as the
empty slice, like nil maps and slices in Go. -/
def bucketOf (idx : RecordIndex) (n : Str) (t : Nat) : List TRR :=
  ((alookup idx n).bind fun inner => alookup inner t).getD []

/-- addRecord: append to the record's `(owner, rrtype)` slice, creating
the inner map on demand. -/
def addRecord (idx : RecordIndex) (r : TRR) : RecordIndex :=
  let inner := (alookup idx r.rr.name).getD []
  let bucket := (alookup inner r.rr.rrtype).getD []
  aset idx r.rr.name (aset inner r.rr.rrtype (bucket ++ [r]))

/-- The scan of `removeRecord` over one slice: find the first record
with the given identity; `none` when absent.  When found, the source
moves the last element into its position and shrinks the slice by one
(`acc` holds the already-scanned prefix in reverse). -/
def removeFromBucket (rid : Nat) (acc : List TRR) : List TRR → Option (List TRR)
  | [] => none
  | x :: rest =>
    if x.rid = rid then
      match rest.getLast? with
      | none => some acc.reverse
      | some last => some (acc.reverse ++ last :: rest.dropLast)
    else removeFromBucket rid (x :: acc) rest

/-- removeRecord: remove one record (by identity) from the index; when
its slice empties, the rrtype key is deleted, and when the inner map
empties, the owner key is deleted. -/
def removeRecord (idx : RecordIndex) (r : TRR) : RecordIndex :=
  let inner := (alookup idx r.rr.name).getD []
  let bucket := (alookup inner r.rr.rrtype).getD []
  match removeFromBucket r.rid [] bucket with
  | none => idx
  | some [] =>
    let inner2 := aerase inner r.rr.rrtype
    if inner2 = [] then aerase idx r.rr.name
    else aset idx r.rr.name inner2
  | some (y :: ys) => aset idx r.rr.name (aset inner r.rr.rrtype (y :: ys))

/-- hasRecord: some record with identical wire-format rendering exists
at the record's `(owner, rrtype)`. -/
def hasRecord (idx : RecordIndex) (rr : RR) : Bool :=
  (bucketOf idx rr.name rr.rrtype).any fun x => x.rr == rr

/-- hasRecords: every record of the slice is already present, by
wire-format equality (vacuously true for the empty slice). -/
def hasRecords (idx : RecordIndex) (rs : List RR) : Bool :=
  rs.all (hasRecord idx)

/-- A record allocation occurs somewhere in the index. -/
def memIndex (idx : RecordIndex) (x : TRR) : Prop :=
  ∃ n t, x ∈ bucketOf idx n t

/-- How many times the allocation `x` occurs in its own
`(owner, rrtype)` slice. -/
def occCount (idx : RecordIndex) (x : TRR) : Nat :=
  (bucketOf idx x.rr.name x.rr.rrtype).count x

/-- Every stored record sits in the slice named by its own header, the
placement discipline `addRecord` establishes. -/
def Placed (idx : RecordIndex) : Prop :=
  ∀ n t x, x ∈ bucketOf idx n t → x.rr.name = n ∧ x.rr.rrtype = t

/-- serviceRecords: the reference-counted anchor of one service type,
owning the type-enumeration PTR record. -/
structure ServiceRecords where
  typeEnumRecord : TRR
  instanceCount : Int
deriving DecidableEq

/-- instanceRecords: a pointer to the shared serviceRecords struct plus
the instance's synthesized records. -/
structure InstanceRecords where
  srPtr : Nat
  records : List TRR
deriving DecidableEq

/-- The UnicastServer state: the heap of allocated serviceRecords
structs (Go pointers become indices into it, and are never reused), the
three maps behind the lock, and the two allocation counters. -/
structure Server where
  heap : List (Nat × ServiceRecords)
  services : List (Str × Nat)
  instances : List (Str × InstanceRecords)
  records : RecordIndex
  nextPtr : Nat
  nextId : Nat
deriving DecidableEq

/-- The zero-valued server (nil maps read as empty ones). -/
def Server.init : Server := ⟨[], [], [], [], 0, 0⟩

/-- The `Ptr` rdata of a PTR record, the key under which `removeInstance`
deletes the service entry. -/
def ptrTarget (r : TRR) : Str :=
  match r.rr.rdata with
  | .ptr t => t
  | _ => []

/-- removeInstance: drop the instance entry, decrement the shared
service entry's count through the stored pointer, and when it reaches
zero remove the type-enumeration PTR from the index and delete the
service entry; finally remove every record of the instance from the
index.  (The dangling-pointer branch is unreachable: every stored
pointer is allocated.) -/
def removeInstance (s : Server) (name : Str) : Server × Bool :=
  match alookup s.instances name with
  | none => (s, false)
  | some ir =>
    match alookup s.heap ir.srPtr with
    | none =>
      ({ s with records := ir.records.foldl removeRecord s.records
                instances := aerase s.instances name }, true)
    | some sr =>
      let sr2 : ServiceRecords := ⟨sr.typeEnumRecord, sr.instanceCount - 1⟩
      let records1 :=
        if sr2.instanceCount = 0 then removeRecord s.records sr2.typeEnumRecord
        else s.records
      let services1 :=
        if sr2.instanceCount = 0 then aerase s.services (ptrTarget sr2.typeEnumRecord)
        else s.services
      ({ s with heap := aset s.heap ir.srPtr sr2
                services := services1
                records := ir.records.foldl removeRecord records1
                instances := aerase s.instances name }, true)

/-- Tag freshly synthesized records with consecutive allocation
identifiers, the model of the allocations inside `NewRecords`. -/
def tagRecords (base : Nat) : List RR → List TRR
  | [] => []
  | r :: rest => ⟨base, r⟩ :: tagRecords (base + 1) rest

/-- Advertise: synthesize the records; if every one already has an
identically-rendered record in the index, report no change; otherwise
replace any prior entry of the same name, bump or create the service
entry (adding its type PTR on creation), store the instance entry and
index every record. -/
def advertise (s : Server) (inst : ServiceInstance) (opts : AdvertiseOptions) :
    Server × Bool :=
  let name := absoluteServiceInstanceName inst.name inst.serviceType inst.domain
  let recs := newRecords inst opts
  if hasRecords s.records recs then (s, false)
  else
    let s1 := (removeInstance s name).1
    let trecs := tagRecords s1.nextId recs
    let s2 := { s1 with nextId := s1.nextId + recs.length }
    let enumDomain := absoluteInstanceEnumerationDomain inst.serviceType inst.domain
    match alookup s2.services enumDomain with
    | some p =>
      let s3 :=
        match alookup s2.heap p with
        | none => s2
        | some sr =>
          { s2 with heap := aset s2.heap p ⟨sr.typeEnumRecord, sr.instanceCount + 1⟩ }
      let s4 := { s3 with instances := aset s3.instances name ⟨p, trecs⟩ }
      ({ s4 with records := trecs.foldl addRecord s4.records }, true)
    | none =>
      let te : TRR := ⟨s2.nextId, newServiceTypePTRRecord inst.serviceType inst.domain 0⟩
      let p := s2.nextPtr
      let s3 := { s2 with
        nextId := s2.nextId + 1
        nextPtr := s2.nextPtr + 1
        heap := s2.heap ++ [(p, ServiceRecords.mk te 1)]
        services := aset s2.services enumDomain p
        records := addRecord s2.records te }
      let s4 := { s3 with instances := aset s3.instances name ⟨p, trecs⟩ }
      ({ s4 with records := trecs.foldl addRecord s4.records }, true)

/-- Unadvertise: remove the instance entry of the absolute name. -/
def unadvertise (s : Server) (inst : ServiceInstance) : Server × Bool :=
  removeInstance s (absoluteServiceInstanceName inst.name inst.serviceType inst.domain)

/-- One call of the Advertiser interface on the responder. -/
inductive Op
  | adv (inst : ServiceInstance) (opts : AdvertiseOptions)
  | unadv (inst : ServiceInstance)

/-- Apply one call, keeping the resulting state. -/
def applyOp (s : Server) : Op → Server
  | .adv inst opts => (advertise s inst opts).1
  | .unadv inst => (unadvertise s inst).1

/-- The state reached from the zero server by a sequence of calls. -/
def runOps (ops : List Op) : Server := ops.foldl applyOp Server.init

/-- How many entries of an instance map reference the serviceRecords
struct at pointer `p`. -/
def refCountL (l : List (Str × InstanceRecords)) (p : Nat) : Nat :=
  (l.filter fun e => e.2.srPtr == p).length

/-- The number of advertised instances sharing the service entry at
pointer `p`: the quantity the stored `instanceCount` mirrors. -/
def refCount (s : Server) (p : Nat) : Nat := refCountL s.instances p

/-- The type-enumeration PTR allocations a service map reaches through
a heap, one per service entry. -/
def liveTEsL (heap : List (Nat × ServiceRecords)) (sv : List (Str × Nat)) :
    List TRR :=
  sv.filterMap fun e => (alookup heap e.2).map fun sr => sr.typeEnumRecord

/-- The type-enumeration PTR allocations reachable in a server state. -/
def liveTEs (s : Server) : List TRR := liveTEsL s.heap s.services

/-- Every record allocation owned by the entries of an instance map. -/
def instRecsL (l : List (Str × InstanceRecords)) : List TRR :=
  l.flatMap fun e => e.2.records

/-- Every record allocation owned by a server's instance entries. -/
def instRecs (s : Server) : List TRR := instRecsL s.instances

/-- The allocations the maps expect the record index to hold: one
type-enumeration PTR per service entry plus each instance's records. -/
def contents (s : Server) : List TRR := liveTEs s ++ instRecs s

/-- The reachability invariant of the responder state: the maps have
unique keys, every instance entry's pointer is reachable through a
service entry, every service entry's heap struct stores exactly the
number of instances referencing it (at least one) and is keyed by its
own PTR target, unreferenced heap structs have count zero and their
type PTR out of the index, and the index holds exactly the reachable
allocations, each once, in its own slice, with fresh identifiers and
pointers available. -/
structure Inv (s : Server) : Prop where
  ikeys : (s.instances.map Prod.fst).Nodup
  skeys : (s.services.map Prod.fst).Nodup
  hptr : ∀ e ∈ s.instances, ∃ d, alookup s.services d = some e.2.srPtr
  hlive : ∀ d p, alookup s.services d = some p →
    ∃ sr, alookup s.heap p = some sr ∧
      sr.instanceCount = (refCount s p : Int) ∧ 1 ≤ refCount s p ∧
      ptrTarget sr.typeEnumRecord = d
  hdead : ∀ p sr, alookup s.heap p = some sr →
    (∀ d, alookup s.services d ≠ some p) →
    refCount s p = 0 ∧ sr.typeEnumRecord.rid ∉ (contents s).map TRR.rid
  hocc : ∀ x, occCount s.records x = (contents s).count x
  hplaced : Placed s.records
  hnd : ((contents s).map TRR.rid).Nodup
  hrid : ∀ x ∈ contents s, x.rid < s.nextId
  hheaprid : ∀ e ∈ s.heap, e.2.typeEnumRecord.rid < s.nextId
  hpbound : ∀ e ∈ s.heap, e.1 < s.nextPtr

/-- A DNS question (name, qtype, qclass). -/
structure Question where
  qname : Str
  qtype : Nat
  qclass : Nat
deriving DecidableEq

/-- The observable part of the reply the responder builds: the response
code and the answer section. -/
structure DNSResponse where
  rcode : Nat
  answer : List TRR
deriving DecidableEq

/-- buildResponse: no reply unless the request has exactly one question;
a non-IN, non-ANY class or an owner name with no records yields
NXDOMAIN; a type-ANY question is answered with the concatenation of
every rrtype slice at the name, any other type with a copy of its own
slice (possibly empty, with NOERROR). -/
def buildResponse (s : Server) (questions : List Question) : Option DNSResponse :=
  match questions with
  | [q] =>
    if q.qclass ≠ ClassINET ∧ q.qclass ≠ ClassANY then
      some ⟨RcodeNameError, []⟩
    else
      let byType := (alookup s.records q.qname).getD []
      if byType.length = 0 then some ⟨RcodeNameError, []⟩
      else if q.qtype = TypeANY then
        some ⟨RcodeSuccess, byType.flatMap (fun e => e.2)⟩
      else
        some ⟨RcodeSuccess, (alookup byType q.qtype).getD []⟩
  | _ => none

/-! ## The unicast resolver's query primitive (`unicastresolver.go`) -/

/-- The observable part of one upstream server's reply. -/
structure ResolverReply where
  rcode : Nat
  answer : List RR
deriving DecidableEq

/-- The server-iteration loop of `UnicastResolver.query`.  `ctxErr` is
the (constant) result of `ctx.Err()`, checked at each iteration
boundary; each list element is one configured server's outcome, `none`
when dialing or the exchange produced no response.  A NOERROR or
NXDOMAIN reply terminates authoritatively with `answered = true`; any
other rcode falls through to the next server; an exhausted server list
yields `(none, false, none)`. -/
def queryServers (ctxErr : Option String) :
    List (Option ResolverReply) → Option ResolverReply × Bool × Option String
  | [] => (none, false, none)
  | o :: rest =>
    if ctxErr.isSome then (none, false, ctxErr)
    else
      match o with
      | none => queryServers ctxErr rest
      | some res =>
        if res.rcode = RcodeNameError ∨ res.rcode = RcodeSuccess then
          (some res, true, none)
        else queryServers ctxErr rest

/-! ## Sample values (closed instantiations for the theorems) -/

/-- A concrete service instance, after the repository's own tests. -/
def sampleInstance : ServiceInstance :=
  ⟨str "Instance A", str "_http._tcp", str "example.org", str "a.example.com",
    12345, 10, 20, [⟨[(str "key", some (str "value"))]⟩], 0⟩

/-- A second instance of the same service type. -/
def sampleInstanceB : ServiceInstance :=
  { sampleInstance with name := str "Instance B" }

/-- The sample instance with every attribute set empty. -/
def sampleInstanceNoAttrs : ServiceInstance :=
  { sampleInstance with attributes := [] }

/-- The sample instance with only its TTL changed, to the explicit
default of 120 seconds. -/
def sampleInstanceTTL : ServiceInstance :=
  { sampleInstance with ttl := 120 * second }

/-- The sample instance with only its target port changed. -/
def sampleInstancePort : ServiceInstance :=
  { sampleInstance with targetPort := 54321 }

/-- Advertise options carrying one IPv4 address and one sub-type. -/
def sampleOptions : AdvertiseOptions :=
  ⟨[[192, 168, 20, 1]], [str "_printer"]⟩

/-- Empty advertise options. -/
def noOptions : AdvertiseOptions := ⟨[], []⟩

/-! # Theorems -/

/-! ## Name escaping: claim C9 -/

theorem escapeInstance_backslash_mem : '\\' ∈ needsEscape := by decide

theorem escapeInstance_dot_mem : '.' ∈ needsEscape := by decide

theorem parseInstanceLoop_escapeInstance (L : Str) (acc : Str) :
    parseInstanceLoop (escapeInstance L) false acc = .ok (acc.reverse ++ L, []) := by
  induction L generalizing acc with
  | nil => simp [escapeInstance, parseInstanceLoop]
  | cons c rest ih =>
    by_cases h : c ∈ needsEscape
    · have h1 : escapeInstance (c :: rest) = '\\' :: c :: escapeInstance rest := by
        simp [escapeInstance, h]
      rw [h1]
      show parseInstanceLoop ('\\' :: c :: escapeInstance rest) false acc = _
      rw [parseInstanceLoop]
      simp only [if_pos rfl]
      rw [parseInstanceLoop, ih (c :: acc)]
      simp
    · have hbs : ¬ c = '\\' := fun hc => h (hc ▸ escapeInstance_backslash_mem)
      have hdot : ¬ c = '.' := fun hc => h (hc ▸ escapeInstance_dot_mem)
      have h1 : escapeInstance (c :: rest) = c :: escapeInstance rest := by
        simp [escapeInstance, h]
      rw [h1]
      show parseInstanceLoop (c :: escapeInstance rest) false acc = _
      rw [parseInstanceLoop]
      simp only [if_neg hbs, if_neg hdot]
      rw [ih (c :: acc)]
      simp

/-- Claim C9: for every instance label `L` with no unescaped dot,
`ParseInstance (EscapeInstance L)` succeeds and returns `L` itself with
an empty tail: `EscapeInstance` prepends a backslash to exactly the
runes of `needsEscape` (dot, space, apostrophe, at-sign, semicolon,
parentheses, double quote, backslash) and `ParseInstance` strips those
escapes again, stopping at the first unescaped dot, of which the escaped
form has none. -/
theorem escape_parse_round_trip (L : Str) (hdot : hasUnescapedDot L false = false) :
    parseInstance (escapeInstance L) = .ok (L, []) := by
  have h := parseInstanceLoop_escapeInstance L []
  simpa [parseInstance] using h

theorem escape_parse_round_trip_witness :
    hasUnescapedDot (str "Foo\\.Bar baz") false = false ∧
      parseInstance (escapeInstance (str "Foo\\.Bar baz")) =
        .ok (str "Foo\\.Bar baz", []) :=
  ⟨by decide, escape_parse_round_trip (str "Foo\\.Bar baz") (by decide)⟩

/-! ## Resolver server iteration: claim C8 -/

theorem queryServers_skip_all (outcomes : List (Option ResolverReply))
    (h : ∀ o ∈ outcomes, ∀ x, o = some x →
      x.rcode ≠ RcodeSuccess ∧ x.rcode ≠ RcodeNameError) :
    queryServers none outcomes = (none, false, none) := by
  induction outcomes with
  | nil => rfl
  | cons o rest ih =>
    have hrest : ∀ o ∈ rest, ∀ x, o = some x →
        x.rcode ≠ RcodeSuccess ∧ x.rcode ≠ RcodeNameError :=
      fun o ho x hx => h o (List.mem_cons_of_mem _ ho) x hx
    cases o with
    | none => simpa [queryServers] using ih hrest
    | some res =>
      have hres := h (some res) (List.mem_cons_self _ _) res rfl
      have hcond : ¬ (res.rcode = RcodeNameError ∨ res.rcode = RcodeSuccess) := by
        rintro (hc | hc)
        · exact hres.2 hc
        · exact hres.1 hc
      simpa [queryServers, hcond] using ih hrest

/-- Claim C8: in the resolver's `query` primitive the first server whose
reply has rcode NOERROR or NXDOMAIN terminates the iteration with that
reply and `answered = true`; servers that fail to exchange (`none`) or
return any other rcode are skipped; and when every server is skipped the
primitive returns `(nil, false, nil)`. -/
theorem resolver_query_iteration (outcomes pre post : List (Option ResolverReply))
    (r : ResolverReply) :
    ((∀ o ∈ outcomes, ∀ x, o = some x →
        x.rcode ≠ RcodeSuccess ∧ x.rcode ≠ RcodeNameError) →
      queryServers none outcomes = (none, false, none))
    ∧ (outcomes = pre ++ some r :: post →
        (r.rcode = RcodeSuccess ∨ r.rcode = RcodeNameError) →
        (∀ o ∈ pre, ∀ x, o = some x →
          x.rcode ≠ RcodeSuccess ∧ x.rcode ≠ RcodeNameError) →
        queryServers none outcomes = (some r, true, none)) := by
  constructor
  · exact queryServers_skip_all outcomes
  · intro heq hr hpre
    subst heq
    induction pre with
    | nil =>
      have hcond : r.rcode = RcodeNameError ∨ r.rcode = RcodeSuccess := hr.symm
      simp [queryServers, hcond]
    | cons o rest ih =>
      have hrest : ∀ o ∈ rest, ∀ x, o = some x →
          x.rcode ≠ RcodeSuccess ∧ x.rcode ≠ RcodeNameError :=
        fun o ho x hx => hpre o (List.mem_cons_of_mem _ ho) x hx
      cases o with
      | none => simpa [queryServers] using ih hrest
      | some res =>
        have hres := hpre (some res) (List.mem_cons_self _ _) res rfl
        have hcond : ¬ (res.rcode = RcodeNameError ∨ res.rcode = RcodeSuccess) := by
          rintro (hc | hc)
          · exact hres.2 hc
          · exact hres.1 hc
        simpa [queryServers, hcond] using ih hrest

/-! ## Association-list lemmas -/

theorem alookup_eq_none_iff {κ α : Type} [DecidableEq κ] (l : List (κ × α)) (k : κ) :
    alookup l k = none ↔ k ∉ l.map Prod.fst := by
  induction l with
  | nil => simp [alookup]
  | cons e rest ih =>
    by_cases h : e.1 = k
    · simp [alookup, h]
    · have h2 : ¬ k = e.1 := fun hh => h hh.symm
      simp [alookup, h, ih, h2]

theorem alookup_mem {κ α : Type} [DecidableEq κ] {l : List (κ × α)} {k : κ} {v : α}
    (h : alookup l k = some v) : (k, v) ∈ l := by
  induction l with
  | nil => simp [alookup] at h
  | cons e rest ih =>
    by_cases he : e.1 = k
    · rw [alookup, if_pos he] at h
      injection h with h2
      subst h2
      subst he
      exact List.mem_cons_self _ _
    · rw [alookup, if_neg he] at h
      exact List.mem_cons_of_mem _ (ih h)

theorem alookup_of_mem_nodup {κ α : Type} [DecidableEq κ] {l : List (κ × α)}
    (hnd : (l.map Prod.fst).Nodup) {k : κ} {v : α} (h : (k, v) ∈ l) :
    alookup l k = some v := by
  induction l with
  | nil => simp at h
  | cons e rest ih =>
    rcases List.mem_cons.mp h with h1 | h1
    · subst h1
      simp [alookup]
    · have hk : e.1 ≠ k := by
        intro hk
        have : k ∈ rest.map Prod.fst := List.mem_map.mpr ⟨(k, v), h1, rfl⟩
        rw [List.map_cons, List.nodup_cons] at hnd
        exact hnd.1 (hk ▸ this)
      rw [alookup, if_neg hk]
      exact ih (List.nodup_cons.mp (by simpa using hnd)).2 h1

theorem alookup_aset_self {κ α : Type} [DecidableEq κ] (l : List (κ × α)) (k : κ) (v : α) :
    alookup (aset l k v) k = some v := by
  induction l with
  | nil => simp [aset, alookup]
  | cons e rest ih =>
    by_cases h : e.1 = k
    · simp [aset, h, alookup]
    · simp [aset, h, alookup, ih]

theorem alookup_aset_ne {κ α : Type} [DecidableEq κ] (l : List (κ × α)) (k k2 : κ) (v : α)
    (h : k2 ≠ k) : alookup (aset l k v) k2 = alookup l k2 := by
  induction l with
  | nil => simp [aset, alookup, Ne.symm h]
  | cons e rest ih =>
    by_cases he : e.1 = k
    · have he2 : ¬ e.1 = k2 := by rw [he]; exact fun hh => h hh.symm
      rw [aset, if_pos he]
      simp [alookup, Ne.symm h, he2]
    · rw [aset, if_neg he, alookup, alookup]
      by_cases he2 : e.1 = k2
      · rw [if_pos he2, if_pos he2]
      · rw [if_neg he2, if_neg he2, ih]

theorem alookup_aerase_self {κ α : Type} [DecidableEq κ] (l : List (κ × α)) (k : κ) :
    alookup (aerase l k) k = none := by
  induction l with
  | nil => rfl
  | cons e rest ih =>
    by_cases h : e.1 = k
    · simpa [aerase, h] using ih
    · simpa [aerase, h, alookup] using ih

theorem aerase_cons_self {κ α : Type} [DecidableEq κ] (e : κ × α) (rest : List (κ × α))
    (k : κ) (he : e.1 = k) : aerase (e :: rest) k = aerase rest k := by
  simp [aerase, List.filter_cons, he]

theorem aerase_cons_ne {κ α : Type} [DecidableEq κ] (e : κ × α) (rest : List (κ × α))
    (k : κ) (he : ¬ e.1 = k) : aerase (e :: rest) k = e :: aerase rest k := by
  simp [aerase, List.filter_cons, he]

theorem alookup_aerase_ne {κ α : Type} [DecidableEq κ] (l : List (κ × α)) (k k2 : κ)
    (h : k2 ≠ k) : alookup (aerase l k) k2 = alookup l k2 := by
  induction l with
  | nil => rfl
  | cons e rest ih =>
    by_cases he : e.1 = k
    · have he2 : ¬ e.1 = k2 := by rw [he]; exact fun hh => h hh.symm
      rw [aerase_cons_self e rest k he, ih, alookup, if_neg he2]
    · rw [aerase_cons_ne e rest k he, alookup, alookup]
      by_cases he2 : e.1 = k2
      · rw [if_pos he2, if_pos he2]
      · rw [if_neg he2, if_neg he2, ih]

theorem aset_eq_append {κ α : Type} [DecidableEq κ] (l : List (κ × α)) (k : κ) (v : α)
    (h : alookup l k = none) : aset l k v = l ++ [(k, v)] := by
  induction l with
  | nil => rfl
  | cons e rest ih =>
    rw [alookup] at h
    by_cases he : e.1 = k
    · rw [if_pos he] at h; cases h
    · rw [if_neg he] at h
      rw [aset, if_neg he, ih h, List.cons_append]

theorem alookup_append_none {κ α : Type} [DecidableEq κ] (l1 l2 : List (κ × α)) (k : κ)
    (h : alookup l1 k = none) : alookup (l1 ++ l2) k = alookup l2 k := by
  induction l1 with
  | nil => rfl
  | cons e rest ih =>
    rw [alookup] at h
    by_cases he : e.1 = k
    · rw [if_pos he] at h; cases h
    · rw [if_neg he] at h
      rw [List.cons_append, alookup, if_neg he, ih h]

theorem alookup_append_some {κ α : Type} [DecidableEq κ] (l1 l2 : List (κ × α)) (k : κ)
    (v : α) (h : alookup l1 k = some v) : alookup (l1 ++ l2) k = some v := by
  induction l1 with
  | nil => simp [alookup] at h
  | cons e rest ih =>
    rw [alookup] at h
    by_cases he : e.1 = k
    · rw [if_pos he] at h
      rw [List.cons_append, alookup, if_pos he, h]
    · rw [if_neg he] at h
      rw [List.cons_append, alookup, if_neg he, ih h]

theorem mem_aset {κ α : Type} [DecidableEq κ] {l : List (κ × α)} {k : κ} {v : α}
    {e : κ × α} (h : e ∈ aset l k v) : e = (k, v) ∨ e ∈ l := by
  induction l with
  | nil => simpa [aset] using h
  | cons e2 rest ih =>
    by_cases he : e2.1 = k
    · rw [aset, if_pos he] at h
      rcases List.mem_cons.mp h with h1 | h1
      · exact Or.inl h1
      · exact Or.inr (List.mem_cons_of_mem _ h1)
    · rw [aset, if_neg he] at h
      rcases List.mem_cons.mp h with h1 | h1
      · exact Or.inr (h1 ▸ List.mem_cons_self _ _)
      · rcases ih h1 with h2 | h2
        · exact Or.inl h2
        · exact Or.inr (List.mem_cons_of_mem _ h2)

theorem mem_aset_of_ne {κ α : Type} [DecidableEq κ] {l : List (κ × α)} {k : κ} {v : α}
    {e : κ × α} (he : e ∈ l) (hk : e.1 ≠ k) : e ∈ aset l k v := by
  induction l with
  | nil => simp at he
  | cons e2 rest ih =>
    rcases List.mem_cons.mp he with h1 | h1
    · subst h1
      rw [aset, if_neg hk]
      exact List.mem_cons_self _ _
    · by_cases he2 : e2.1 = k
      · rw [aset, if_pos he2]
        exact List.mem_cons_of_mem _ h1
      · rw [aset, if_neg he2]
        exact List.mem_cons_of_mem _ (ih h1)

theorem mem_aerase_iff {κ α : Type} [DecidableEq κ] {l : List (κ × α)} {k : κ}
    {e : κ × α} : e ∈ aerase l k ↔ e ∈ l ∧ e.1 ≠ k := by
  unfold aerase
  rw [List.mem_filter]
  constructor
  · rintro ⟨h1, h2⟩
    refine ⟨h1, ?_⟩
    intro hk
    rw [if_pos hk] at h2
    cases h2
  · rintro ⟨h1, h2⟩
    exact ⟨h1, by rw [if_neg h2]⟩

theorem keys_aset_nodup {κ α : Type} [DecidableEq κ] {l : List (κ × α)}
    (h : (l.map Prod.fst).Nodup) (k : κ) (v : α) :
    ((aset l k v).map Prod.fst).Nodup := by
  induction l with
  | nil => simp [aset]
  | cons e rest ih =>
    simp only [List.map_cons, List.nodup_cons] at h
    by_cases he : e.1 = k
    · rw [aset, if_pos he]
      simp only [List.map_cons, List.nodup_cons]
      exact ⟨he ▸ h.1, h.2⟩
    · rw [aset, if_neg he]
      simp only [List.map_cons, List.nodup_cons]
      refine ⟨?_, ih h.2⟩
      intro hmem
      rcases List.mem_map.mp hmem with ⟨e2, he2, he2eq⟩
      rcases mem_aset he2 with h3 | h3
      · exact he (by rw [← he2eq, h3])
      · exact h.1 (List.mem_map.mpr ⟨e2, h3, he2eq⟩)

theorem keys_aerase_nodup {κ α : Type} [DecidableEq κ] {l : List (κ × α)}
    (h : (l.map Prod.fst).Nodup) (k : κ) : ((aerase l k).map Prod.fst).Nodup :=
  ((List.filter_sublist l).map Prod.fst).nodup h

/-! ## Attribute collection lookup: claim C10 -/

theorem findPairValue_eq_none_iff (k : Str) (l : List Attributes) :
    findPairValue k l = none ↔
      ∀ b ∈ l, ∀ w, alookup b.entries k ≠ some (some w) := by
  induction l with
  | nil => simp [findPairValue]
  | cons a rest ih =>
    rw [findPairValue]
    cases ha : alookup a.entries k with
    | none =>
      simp only [ih]
      constructor
      · intro h b hb w
        rcases List.mem_cons.mp hb with h1 | h1
        · subst h1; rw [ha]; intro hc; cases hc
        · exact h b h1 w
      · intro h b hb w
        exact h b (List.mem_cons_of_mem _ hb) w
    | some vo =>
      cases vo with
      | none =>
        simp only [ih]
        constructor
        · intro h b hb w
          rcases List.mem_cons.mp hb with h1 | h1
          · subst h1; rw [ha]; intro hc; cases hc
          · exact h b h1 w
        · intro h b hb w
          exact h b (List.mem_cons_of_mem _ hb) w
      | some v =>
        simp only []
        constructor
        · intro h; cases h
        · intro h
          exact absurd ha (h a (List.mem_cons_self _ _) v)

theorem findPairValue_append_none (k : Str) (l1 l2 : List Attributes)
    (h : findPairValue k l1 = none) :
    findPairValue k (l1 ++ l2) = findPairValue k l2 := by
  induction l1 with
  | nil => rfl
  | cons a rest ih =>
    rw [findPairValue] at h
    rw [List.cons_append, findPairValue]
    cases ha : alookup a.entries k with
    | none => rw [ha] at h; exact ih h
    | some vo =>
      cases vo with
      | none => rw [ha] at h; exact ih h
      | some v => rw [ha] at h; cases h

/-- Claim C10: `AttributeCollection.Get` returns, with `ok = true`, the
pair value of the rightmost set in which the (normalized) key occurs as
a pair; sets in which the key is a flag or absent are skipped entirely,
so a flag occurrence to the right of a pair does not hide the pair, and
`ok = false` is returned exactly when no set holds the key as a pair. -/
theorem collectionGet_rightmost_pair (c xs ys : List Attributes) (a : Attributes)
    (k k2 v : Str) :
    (normalizeAttributeKey k = .ok k2 →
      (collectionGet c k = .ok none ↔
        ∀ b ∈ c, ∀ w, alookup b.entries k2 ≠ some (some w)))
    ∧ (normalizeAttributeKey k = .ok k2 → c = xs ++ a :: ys →
        alookup a.entries k2 = some (some v) →
        (∀ b ∈ ys, ∀ w, alookup b.entries k2 ≠ some (some w)) →
        collectionGet c k = .ok (some v)) := by
  constructor
  · intro hk
    have hcg : collectionGet c k = .ok (findPairValue k2 c.reverse) := by
      rw [collectionGet, hk]
    rw [hcg]
    constructor
    · intro h
      have h2 : findPairValue k2 c.reverse = none := by injection h
      intro b hb w
      exact (findPairValue_eq_none_iff k2 c.reverse).mp h2 b (List.mem_reverse.mpr hb) w
    · intro h
      have h2 : findPairValue k2 c.reverse = none :=
        (findPairValue_eq_none_iff k2 c.reverse).mpr
          (fun b hb w => h b (List.mem_reverse.mp hb) w)
      rw [h2]
  · intro hk hc ha hys
    have hcg : collectionGet c k = .ok (findPairValue k2 c.reverse) := by
      rw [collectionGet, hk]
    rw [hcg, hc]
    have hrev : (xs ++ a :: ys).reverse = ys.reverse ++ a :: xs.reverse := by
      simp
    rw [hrev]
    have hnone : findPairValue k2 ys.reverse = none :=
      (findPairValue_eq_none_iff k2 ys.reverse).mpr
        (fun b hb w => hys b (List.mem_reverse.mp hb) w)
    rw [findPairValue_append_none k2 ys.reverse _ hnone, findPairValue, ha]

theorem collectionGet_rightmost_pair_witness :
    collectionGet [⟨[(str "k", some (str "left"))]⟩,
        ⟨[(str "k", some (str "right"))]⟩, ⟨[(str "k", none)]⟩] (str "K") =
      .ok (some (str "right")) ∧
    (collectionGet [⟨[(str "k", none)]⟩] (str "K") = .ok none ↔
      ∀ b ∈ [Attributes.mk [(str "k", none)]], ∀ w,
        alookup b.entries (str "k") ≠ some (some w)) :=
  ⟨(collectionGet_rightmost_pair
      [⟨[(str "k", some (str "left"))]⟩, ⟨[(str "k", some (str "right"))]⟩,
        ⟨[(str "k", none)]⟩]
      [⟨[(str "k", some (str "left"))]⟩] [⟨[(str "k", none)]⟩]
      ⟨[(str "k", some (str "right"))]⟩ (str "K") (str "k") (str "right")).2
      rfl rfl rfl
      (by
        intro b hb w
        rcases List.mem_singleton.mp hb with rfl
        intro hc
        simp [alookup, str] at hc),
    (collectionGet_rightmost_pair [⟨[(str "k", none)]⟩] [] [] ⟨[]⟩
      (str "K") (str "k") (str "")).1 rfl⟩

/-! ## TXT attribute round trip: claim C7 -/

theorem normalizeKeyChars_self_elem (k : Str) (h : normalizeKeyChars k = .ok k) :
    ∀ c ∈ k, normalizeAttributeChar c = .ok c := by
  induction k with
  | nil => intro c hc; cases hc
  | cons c rest ih =>
    intro c2 hc2
    rw [normalizeKeyChars] at h
    cases hn : normalizeAttributeChar c with
    | error e => rw [hn] at h; cases h
    | ok c3 =>
      rw [hn] at h
      cases hr : normalizeKeyChars rest with
      | error e => rw [hr] at h; cases h
      | ok rest3 =>
        rw [hr] at h
        injection h with h2
        injection h2 with hc3 hrest3
        subst hrest3
        rcases List.mem_cons.mp hc2 with h4 | h4
        · subst h4; rw [hn, hc3]
        · exact ih hr c2 h4

theorem self_normalized_ne_nil {k : Str} (h : normalizeAttributeKey k = .ok k) :
    k ≠ [] := by
  intro hk
  subst hk
  rw [normalizeAttributeKey, if_pos rfl] at h
  cases h

theorem self_normalized_no_eq {k : Str} (h : normalizeAttributeKey k = .ok k) :
    '=' ∉ k := by
  intro hmem
  have hk : ¬ k = [] := self_normalized_ne_nil h
  rw [normalizeAttributeKey, if_neg hk] at h
  have h2 := normalizeKeyChars_self_elem k h '=' hmem
  rw [normalizeAttributeChar, if_pos rfl] at h2
  cases h2

theorem eqSignIdx_eq_none : ∀ k : Str, '=' ∉ k → eqSignIdx k = none := by
  intro k
  induction k with
  | nil => intro _; rfl
  | cons c rest ih =>
    intro h
    have hc : ¬ c = '=' := fun hc => h (by rw [hc]; exact List.mem_cons_self _ _)
    rw [eqSignIdx, if_neg hc, ih (fun hm => h (List.mem_cons_of_mem _ hm))]
    rfl

theorem eqSignIdx_append : ∀ k v : Str, '=' ∉ k →
    eqSignIdx (k ++ '=' :: v) = some k.length := by
  intro k
  induction k with
  | nil => intro v _; simp [eqSignIdx]
  | cons c rest ih =>
    intro v h
    have hc : ¬ c = '=' := fun hc => h (by rw [hc]; exact List.mem_cons_self _ _)
    rw [List.cons_append, eqSignIdx, if_neg hc,
      ih v (fun hm => h (List.mem_cons_of_mem _ hm))]
    rfl

theorem take_len_append (l1 l2 : Str) : (l1 ++ l2).take l1.length = l1 := by
  induction l1 with
  | nil => rfl
  | cons c rest ih => simp [ih]

theorem drop_len_append (l1 l2 : Str) : (l1 ++ l2).drop l1.length = l2 := by
  induction l1 with
  | nil => rfl
  | cons c rest ih => simp [ih]

theorem withTXT_eqSignIdx_succ (m : Attributes) (pair : Str) (n : Nat)
    (hp : ¬ pair = []) (hidx : eqSignIdx pair = some (n + 1)) :
    m.withTXT pair =
      match normalizeAttributeKey (pair.take (n + 1)) with
      | .error e => .error e
      | .ok k => .ok (m.insert k (some (pair.drop (n + 1 + 1))), true) := by
  rw [Attributes.withTXT, if_neg hp, hidx]
  rfl

theorem withTXT_renderAttribute (m : Attributes) (e : Str × Option Str)
    (hk : normalizeAttributeKey e.1 = .ok e.1) :
    m.withTXT (renderAttribute e) = .ok (m.insert e.1 e.2, true) := by
  obtain ⟨k, v⟩ := e
  have hk2 : normalizeAttributeKey k = .ok k := hk
  have hne : ¬ k = [] := self_normalized_ne_nil hk2
  have hnoeq : '=' ∉ k := self_normalized_no_eq hk2
  cases v with
  | none =>
    show m.withTXT k = _
    rw [Attributes.withTXT, if_neg hne, eqSignIdx_eq_none k hnoeq, hk2]
  | some v =>
    show m.withTXT (k ++ '=' :: v) = _
    have happ : ¬ k ++ '=' :: v = [] := by simp
    have hlen : k.length ≠ 0 := by simpa [List.length_eq_zero] using hne
    obtain ⟨n0, hn0⟩ := Nat.exists_eq_succ_of_ne_zero hlen
    have hidx : eqSignIdx (k ++ '=' :: v) = some (n0 + 1) := by
      rw [eqSignIdx_append k v hnoeq, hn0]
    rw [withTXT_eqSignIdx_succ m _ n0 happ hidx]
    have htake : (k ++ '=' :: v).take (n0 + 1) = k := by
      have hlen2 : n0 + 1 = k.length := by omega
      rw [hlen2]
      exact take_len_append k ('=' :: v)
    have hdrop : (k ++ '=' :: v).drop (n0 + 1 + 1) = v := by
      have h1 : k ++ '=' :: v = (k ++ ['=']) ++ v := by simp
      have h2 : n0 + 1 + 1 = (k ++ ['=']).length := by
        simp only [List.length_append, List.length_singleton]
        omega
      rw [h1, h2, drop_len_append]
    rw [htake, hdrop, hk2]

theorem foldWithTXT_renders (es : List (Str × Option Str)) :
    ∀ m : Attributes, (∀ e ∈ es, normalizeAttributeKey e.1 = .ok e.1) →
      foldWithTXT m (es.map renderAttribute) =
        .ok (es.foldl (fun acc e => acc.insert e.1 e.2) m) := by
  induction es with
  | nil => intro m _; rfl
  | cons e rest ih =>
    intro m h
    rw [List.map_cons, foldWithTXT, List.foldlM_cons,
      withTXT_renderAttribute m e (h e (List.mem_cons_self _ _))]
    show foldWithTXT (m.insert e.1 e.2) (rest.map renderAttribute) = _
    rw [ih (m.insert e.1 e.2) (fun e2 he2 => h e2 (List.mem_cons_of_mem _ he2)),
      List.foldl_cons]

theorem foldl_insert_entries : ∀ (es acc : List (Str × Option Str)),
    (es.map Prod.fst).Nodup →
    (∀ e ∈ es, alookup acc e.1 = none) →
    es.foldl (fun (a : Attributes) e => a.insert e.1 e.2) (Attributes.mk acc)
      = Attributes.mk (acc ++ es) := by
  intro es
  induction es with
  | nil => intro acc _ _; simp
  | cons e rest ih =>
    intro acc hnd hfresh
    rw [List.foldl_cons]
    have h1 : (Attributes.mk acc).insert e.1 e.2 = ⟨acc ++ [(e.1, e.2)]⟩ := by
      rw [Attributes.insert, aset_eq_append _ _ _ (hfresh e (List.mem_cons_self _ _))]
    rw [h1]
    simp only [List.map_cons, List.nodup_cons] at hnd
    have hfresh2 : ∀ e2 ∈ rest, alookup (acc ++ [(e.1, e.2)]) e2.1 = none := by
      intro e2 he2
      rw [alookup_append_none _ _ _ (hfresh e2 (List.mem_cons_of_mem _ he2))]
      have hne : ¬ e.1 = e2.1 := by
        intro hc
        exact hnd.1 (List.mem_map.mpr ⟨e2, he2, hc.symm⟩)
      rw [alookup, if_neg (show ¬ ((e.1, e.2) : Str × Option Str).1 = e2.1 from hne)]
      rfl
    rw [ih (acc ++ [(e.1, e.2)]) hnd.2 hfresh2]
    simp

theorem insertByLess_perm (x : Str × Option Str) (l : List (Str × Option Str)) :
    List.Perm (insertByLess x l) (x :: l) := by
  induction l with
  | nil => exact List.Perm.refl _
  | cons y ys ih =>
    rw [insertByLess]
    by_cases h : entryLess x y
    · rw [if_pos h]
    · rw [if_neg h]
      exact (ih.cons y).trans (List.Perm.swap x y ys)

theorem sortEntries_perm (l : List (Str × Option Str)) : List.Perm (sortEntries l) l := by
  induction l with
  | nil => exact List.Perm.refl _
  | cons x xs ih =>
    show List.Perm (insertByLess x (sortEntries xs)) (x :: xs)
    exact (insertByLess_perm x (sortEntries xs)).trans (ih.cons x)

theorem equal_of_perm (b a : Attributes) (hperm : List.Perm b.entries a.entries)
    (hnd : (a.entries.map Prod.fst).Nodup) : b.equal a = true := by
  rw [Attributes.equal, Bool.and_eq_true]
  constructor
  · simp [hperm.length_eq]
  · rw [List.all_eq_true]
    intro e he
    have hea : (e.1, e.2) ∈ a.entries := hperm.subset he
    rw [alookup_of_mem_nodup hnd hea]
    simp

/-- Claim C7: folding `WithTXT` over `A.ToTXT()` starting from the empty
attribute set reproduces `A`: every flag stays a flag and every pair
stays a pair with the same value bytes (empty values included), and the
result is `Equal` to `A`.  The hypotheses say that `A` is a reachable
attribute set: its keys are distinct and already in normalized form. -/
theorem txt_round_trip (a : Attributes)
    (hnd : (a.entries.map Prod.fst).Nodup)
    (hkeys : ∀ e ∈ a.entries, normalizeAttributeKey e.1 = .ok e.1) :
    ∃ b, foldWithTXT ⟨[]⟩ a.toTXT = .ok b ∧ b.equal a = true := by
  have hperm : List.Perm (sortEntries a.entries) a.entries := sortEntries_perm _
  have hkeys2 : ∀ e ∈ sortEntries a.entries, normalizeAttributeKey e.1 = .ok e.1 :=
    fun e he => hkeys e (hperm.subset he)
  have hnd2 : ((sortEntries a.entries).map Prod.fst).Nodup :=
    ((hperm.map Prod.fst).nodup_iff).mpr hnd
  refine ⟨⟨sortEntries a.entries⟩, ?_, ?_⟩
  · rw [Attributes.toTXT, foldWithTXT_renders _ ⟨[]⟩ hkeys2,
      foldl_insert_entries _ [] hnd2 (fun e _ => rfl)]
    rfl
  · exact equal_of_perm _ a hperm hnd

theorem txt_round_trip_witness :
    ∃ b, foldWithTXT ⟨[]⟩ (Attributes.mk [(str "txtvers", some (str "1")),
        (str "flag", none), (str "b", some [])]).toTXT = .ok b ∧
      b.equal ⟨[(str "txtvers", some (str "1")), (str "flag", none),
        (str "b", some [])]⟩ = true :=
  txt_round_trip ⟨[(str "txtvers", some (str "1")), (str "flag", none),
      (str "b", some [])]⟩
    (by decide) (by intro e he; fin_cases he <;> rfl)

/-! ## Responder query handling: claim C5 -/

/-- Claim C5: for a single-question request, the reply is NXDOMAIN when
the question class is neither IN nor ANY, and likewise when no records
exist at the queried name; when records exist, a non-ANY question is
answered with (a copy of) the slice of its own rrtype — possibly empty,
with NOERROR — and an ANY question with the concatenation of every
rrtype slice at the name. -/
theorem buildResponse_cases (s : Server) (q : Question) :
    ((q.qclass ≠ ClassINET ∧ q.qclass ≠ ClassANY) →
        buildResponse s [q] = some ⟨RcodeNameError, []⟩)
    ∧ ((q.qclass = ClassINET ∨ q.qclass = ClassANY) →
        (alookup s.records q.qname).getD [] = [] →
          buildResponse s [q] = some ⟨RcodeNameError, []⟩)
    ∧ ((q.qclass = ClassINET ∨ q.qclass = ClassANY) →
        (alookup s.records q.qname).getD [] ≠ [] → q.qtype ≠ TypeANY →
          buildResponse s [q] = some ⟨RcodeSuccess,
            (alookup ((alookup s.records q.qname).getD []) q.qtype).getD []⟩)
    ∧ ((q.qclass = ClassINET ∨ q.qclass = ClassANY) →
        (alookup s.records q.qname).getD [] ≠ [] → q.qtype = TypeANY →
          buildResponse s [q] = some ⟨RcodeSuccess,
            ((alookup s.records q.qname).getD []).flatMap (fun e => e.2)⟩) := by
  have hcls : ∀ hc : q.qclass = ClassINET ∨ q.qclass = ClassANY,
      ¬ (q.qclass ≠ ClassINET ∧ q.qclass ≠ ClassANY) := by
    rintro (h | h) ⟨h1, h2⟩
    · exact h1 h
    · exact h2 h
  refine ⟨fun h => ?_, fun hc hb => ?_, fun hc hb ht => ?_, fun hc hb ht => ?_⟩
  · simp [buildResponse, h]
  · simp [buildResponse, hcls hc, hb]
  · have hlen : ¬ ((alookup s.records q.qname).getD []).length = 0 := by
      simpa [List.length_eq_zero] using hb
    simp [buildResponse, hcls hc, hlen, ht]
  · have hlen : ¬ ((alookup s.records q.qname).getD []).length = 0 := by
      simpa [List.length_eq_zero] using hb
    simp [buildResponse, hcls hc, hlen, ht]

theorem buildResponse_cases_witness :
    buildResponse (advertise Server.init sampleInstance noOptions).1
        [⟨str "a.example.com.", TypeANY, 3⟩] = some ⟨RcodeNameError, []⟩ ∧
      buildResponse (advertise Server.init sampleInstance noOptions).1
        [⟨str "nosuch.example.org.", TypeSRV, ClassINET⟩] = some ⟨RcodeNameError, []⟩ ∧
      buildResponse (advertise Server.init sampleInstance noOptions).1
        [⟨absoluteServiceInstanceName (str "Instance A") (str "_http._tcp")
            (str "example.org") ++ ['.'], TypeSRV, ClassINET⟩] =
        some ⟨RcodeSuccess,
          (alookup ((alookup (advertise Server.init sampleInstance noOptions).1.records
              (absoluteServiceInstanceName (str "Instance A") (str "_http._tcp")
                (str "example.org") ++ ['.'])).getD []) TypeSRV).getD []⟩ ∧
      buildResponse (advertise Server.init sampleInstance noOptions).1
        [⟨absoluteServiceInstanceName (str "Instance A") (str "_http._tcp")
            (str "example.org") ++ ['.'], TypeANY, ClassANY⟩] =
        some ⟨RcodeSuccess,
          ((alookup (advertise Server.init sampleInstance noOptions).1.records
              (absoluteServiceInstanceName (str "Instance A") (str "_http._tcp")
                (str "example.org") ++ ['.'])).getD []).flatMap (fun e => e.2)⟩ :=
  ⟨(buildResponse_cases _ _).1 (by decide),
    (buildResponse_cases _ _).2.1 (Or.inl rfl) (by decide),
    (buildResponse_cases _ _).2.2.1 (Or.inl rfl) (by decide) (by decide),
    (buildResponse_cases _ _).2.2.2 (Or.inr rfl) (by decide) rfl⟩

/-! ## Record synthesis, A and AAAA records: claim C3 -/

theorem mem_newTXTRecords_rrtype (i : ServiceInstance) (r : RR)
    (h : r ∈ newTXTRecords i) : r.rrtype = TypeTXT := by
  unfold newTXTRecords at h
  by_cases hrec : ((i.attributes.filter (fun a => !a.isEmpty)).map
      (fun a => txtRecordWith i a.toTXT)).isEmpty
  · simp only [hrec, if_pos] at h
    simp only [List.mem_singleton] at h
    subst h; rfl
  · simp only [hrec, if_neg, Bool.false_eq_true, not_false_iff] at h
    obtain ⟨a, _, ha⟩ := List.mem_map.mp h
    subst ha; rfl

theorem mem_ipAddressRecords_rrtype (i : ServiceInstance) (ip : IPAddr) (r : RR)
    (h : r ∈ ipAddressRecords i ip) :
    r.rrtype = TypeA ∨ r.rrtype = TypeAAAA := by
  unfold ipAddressRecords at h
  by_cases h4 : (ipTo4 ip).isSome
  · obtain ⟨ip4, hip4⟩ := Option.isSome_iff_exists.mp h4
    simp only [h4, if_pos] at h
    simp [newARecord, hip4] at h
    subst h; exact Or.inl rfl
  · simp only [h4, Bool.false_eq_true, if_neg, not_false_iff] at h
    by_cases h16 : (ipTo16 ip).isSome
    · obtain ⟨ip16, hip16⟩ := Option.isSome_iff_exists.mp h16
      simp only [h16, if_pos] at h
      simp [newAAAARecord, h4, hip16] at h
      subst h; exact Or.inr rfl
    · simp [h16] at h

/-- Claim C3: each option-supplied IP address yields exactly one A
record when it passes the To4 test, otherwise exactly one AAAA record
when it is a valid IPv6 address, otherwise nothing; no address yields
both an A and an AAAA record, and the A/AAAA portion of the synthesized
record set is exactly the concatenation of these per-address records. -/
theorem newRecords_ip_branch (i : ServiceInstance) (opts : AdvertiseOptions)
    (ip : IPAddr) :
    ((ipTo4 ip).isSome →
        (ipAddressRecords i ip).countP (fun r => r.rrtype == TypeA) = 1 ∧
        (ipAddressRecords i ip).countP (fun r => r.rrtype == TypeAAAA) = 0)
    ∧ ((ipTo4 ip).isSome = false → (ipTo16 ip).isSome →
        (ipAddressRecords i ip).countP (fun r => r.rrtype == TypeA) = 0 ∧
        (ipAddressRecords i ip).countP (fun r => r.rrtype == TypeAAAA) = 1)
    ∧ ((ipTo4 ip).isSome = false → (ipTo16 ip).isSome = false →
        ipAddressRecords i ip = [])
    ∧ (¬ ((ipAddressRecords i ip).any (fun r => r.rrtype == TypeA) ∧
          (ipAddressRecords i ip).any (fun r => r.rrtype == TypeAAAA)))
    ∧ ((newRecords i opts).filter (fun r => r.rrtype == TypeA || r.rrtype == TypeAAAA)
        = opts.ipAddresses.flatMap (ipAddressRecords i)) := by
  refine ⟨fun h4 => ?_, fun h4 h16 => ?_, fun h4 h16 => ?_, ?_, ?_⟩
  · obtain ⟨ip4, hip4⟩ := Option.isSome_iff_exists.mp h4
    simp [ipAddressRecords, h4, newARecord, hip4, TypeA, TypeAAAA]
  · obtain ⟨ip16, hip16⟩ := Option.isSome_iff_exists.mp h16
    have h4f : ¬ (ipTo4 ip).isSome = true := by simp [h4]
    simp [ipAddressRecords, h4, h16, newAAAARecord, h4f, hip16, TypeA, TypeAAAA]
  · simp [ipAddressRecords, h4, h16]
  · rintro ⟨hA, hAAAA⟩
    obtain ⟨rA, hrA, hA2⟩ := List.any_eq_true.mp hA
    obtain ⟨rB, hrB, hB2⟩ := List.any_eq_true.mp hAAAA
    rcases mem_ipAddressRecords_rrtype i ip rA hrA with h | h
    · rcases mem_ipAddressRecords_rrtype i ip rB hrB with h2 | h2
      · rw [h2] at hB2; simp [TypeA, TypeAAAA] at hB2
      · -- one list element is an A, another an AAAA: impossible since the
        -- branch emits a single record kind
        unfold ipAddressRecords at hrA hrB
        by_cases h4 : (ipTo4 ip).isSome
        · obtain ⟨ip4, hip4⟩ := Option.isSome_iff_exists.mp h4
          simp only [h4, if_pos] at hrB
          simp [newARecord, hip4] at hrB
          rw [hrB] at h2; simp [TypeA, TypeAAAA] at h2
        · simp only [h4, Bool.false_eq_true, if_neg, not_false_iff] at hrA
          by_cases h16 : (ipTo16 ip).isSome
          · obtain ⟨ip16, hip16⟩ := Option.isSome_iff_exists.mp h16
            simp only [h16, if_pos] at hrA
            simp [newAAAARecord, h4, hip16] at hrA
            rw [hrA] at h; simp [TypeA, TypeAAAA] at h
          · simp [h16] at hrA
    · rw [h] at hA2; simp [TypeA, TypeAAAA] at hA2
  · have hTxt : (newTXTRecords i).filter
        (fun r => r.rrtype == TypeA || r.rrtype == TypeAAAA) = [] := by
      rw [List.filter_eq_nil]
      intro r hr
      rw [mem_newTXTRecords_rrtype i r hr]
      decide
    have hSub : (opts.serviceSubTypes.map (newServiceSubTypePTRRecord i)).filter
        (fun r => r.rrtype == TypeA || r.rrtype == TypeAAAA) = [] := by
      rw [List.filter_eq_nil]
      intro r hr
      obtain ⟨st, _, hst⟩ := List.mem_map.mp hr
      subst hst
      simp [newServiceSubTypePTRRecord, TypePTR, TypeA, TypeAAAA]
    have hIp : ∀ ips : List IPAddr,
        (ips.flatMap (ipAddressRecords i)).filter
          (fun r => r.rrtype == TypeA || r.rrtype == TypeAAAA)
        = ips.flatMap (ipAddressRecords i) := by
      intro ips
      rw [List.filter_eq_self]
      intro r hr
      obtain ⟨ip2, _, hip2⟩ := List.mem_flatMap.mp hr
      rcases mem_ipAddressRecords_rrtype i ip2 r hip2 with h | h <;> simp [h, TypeA, TypeAAAA]
    simp only [newRecords, List.filter_append, hTxt, hSub, hIp, List.append_nil,
      List.nil_append]
    simp [newPTRRecord, newSRVRecord, TypePTR, TypeSRV, TypeA, TypeAAAA]

theorem newRecords_ip_branch_witness :
    ((ipAddressRecords sampleInstance [192, 168, 20, 1]).countP
        (fun r => r.rrtype == TypeA) = 1 ∧
      (ipAddressRecords sampleInstance [192, 168, 20, 1]).countP
        (fun r => r.rrtype == TypeAAAA) = 0) ∧
    ((ipAddressRecords sampleInstance
          [0xfe, 0x80, 0, 0, 0, 0, 0, 0, 0, 0, 0, 0, 0, 0, 0, 1]).countP
        (fun r => r.rrtype == TypeA) = 0 ∧
      (ipAddressRecords sampleInstance
          [0xfe, 0x80, 0, 0, 0, 0, 0, 0, 0, 0, 0, 0, 0, 0, 0, 1]).countP
        (fun r => r.rrtype == TypeAAAA) = 1) ∧
    ipAddressRecords sampleInstance [1, 2, 3] = [] :=
  ⟨(newRecords_ip_branch sampleInstance noOptions [192, 168, 20, 1]).1 (by decide),
    (newRecords_ip_branch sampleInstance noOptions
      [0xfe, 0x80, 0, 0, 0, 0, 0, 0, 0, 0, 0, 0, 0, 0, 0, 1]).2.1 (by decide) (by decide),
    (newRecords_ip_branch sampleInstance noOptions [1, 2, 3]).2.2.1 (by decide) (by decide)⟩

/-! ## Record synthesis, TXT records: claim C6 -/

/-- Claim C6: record synthesis emits one TXT record per non-empty
attribute set, and when no attribute set is non-empty it emits exactly
one TXT record holding a single empty string, so the synthesized record
set of every instance contains at least one TXT record. -/
theorem newTXTRecords_shape (i : ServiceInstance) (opts : AdvertiseOptions) :
    (i.attributes.filter (fun a => !a.isEmpty) = [] →
        newTXTRecords i = [txtRecordWith i [[]]])
    ∧ (i.attributes.filter (fun a => !a.isEmpty) ≠ [] →
        newTXTRecords i =
          (i.attributes.filter (fun a => !a.isEmpty)).map
            (fun a => txtRecordWith i a.toTXT))
    ∧ newTXTRecords i ≠ []
    ∧ ∃ r ∈ newRecords i opts, r.rrtype = TypeTXT := by
  have hne : newTXTRecords i ≠ [] := by
    unfold newTXTRecords
    by_cases hrec : ((i.attributes.filter (fun a => !a.isEmpty)).map
        (fun a => txtRecordWith i a.toTXT)).isEmpty
    · simp [hrec]
    · simp only [hrec, Bool.false_eq_true, if_neg, not_false_iff]
      simpa [List.isEmpty_iff] using hrec
  refine ⟨fun h => ?_, fun h => ?_, hne, ?_⟩
  · unfold newTXTRecords
    simp [h]
  · unfold newTXTRecords
    have : ¬ ((i.attributes.filter (fun a => !a.isEmpty)).map
        (fun a => txtRecordWith i a.toTXT)).isEmpty := by
      simpa [List.isEmpty_iff] using h
    simp [this]
  · obtain ⟨r, hr⟩ := List.exists_mem_of_ne_nil _ hne
    refine ⟨r, ?_, mem_newTXTRecords_rrtype i r hr⟩
    unfold newRecords
    exact List.mem_append_left _ (List.mem_append_left _ (List.mem_append_right _ hr))

theorem newTXTRecords_shape_witness :
    newTXTRecords sampleInstanceNoAttrs = [txtRecordWith sampleInstanceNoAttrs [[]]] ∧
      newTXTRecords sampleInstance =
        (sampleInstance.attributes.filter (fun a => !a.isEmpty)).map
          (fun a => txtRecordWith sampleInstance a.toTXT) :=
  ⟨(newTXTRecords_shape sampleInstanceNoAttrs noOptions).1 (by decide),
    (newTXTRecords_shape sampleInstance noOptions).2.1 (by decide)⟩

/-! ## Record index lemmas -/

theorem bucketOf_eq (idx : RecordIndex) (n : Str) (t : Nat) :
    bucketOf idx n t = (alookup ((alookup idx n).getD []) t).getD [] := by
  unfold bucketOf
  cases alookup idx n with
  | none => simp [alookup]
  | some inner => simp

theorem bucketOf_addRecord (idx : RecordIndex) (r : TRR) (n : Str) (t : Nat) :
    bucketOf (addRecord idx r) n t =
      if n = r.rr.name ∧ t = r.rr.rrtype then bucketOf idx n t ++ [r]
      else bucketOf idx n t := by
  simp only [addRecord]
  by_cases hn : n = r.rr.name
  · subst hn
    rw [bucketOf_eq, alookup_aset_self]
    by_cases ht : t = r.rr.rrtype
    · subst ht
      rw [Option.getD_some, alookup_aset_self, Option.getD_some, if_pos ⟨rfl, rfl⟩,
        bucketOf_eq]
    · rw [Option.getD_some, alookup_aset_ne _ _ _ _ ht,
        if_neg (fun hc => ht hc.2), bucketOf_eq]
  · rw [bucketOf_eq, alookup_aset_ne _ _ _ _ hn, if_neg (fun hc => hn hc.1),
      bucketOf_eq]

theorem hasRecord_addRecord_self (idx : RecordIndex) (r : TRR) :
    hasRecord (addRecord idx r) r.rr = true := by
  rw [hasRecord, bucketOf_addRecord, if_pos ⟨rfl, rfl⟩]
  simp

theorem hasRecord_addRecord_mono (idx : RecordIndex) (r : TRR) (rr : RR)
    (h : hasRecord idx rr = true) : hasRecord (addRecord idx r) rr = true := by
  rw [hasRecord] at h ⊢
  rw [bucketOf_addRecord]
  by_cases hc : rr.name = r.rr.name ∧ rr.rrtype = r.rr.rrtype
  · rw [if_pos hc]
    simp only [List.any_append, Bool.or_eq_true]
    exact Or.inl h
  · rw [if_neg hc]
    exact h

theorem hasRecord_foldl_add_mono (l : List TRR) :
    ∀ (idx : RecordIndex) (rr : RR), hasRecord idx rr = true →
      hasRecord (l.foldl addRecord idx) rr = true := by
  induction l with
  | nil => intro idx rr h; exact h
  | cons r rest ih =>
    intro idx rr h
    exact ih (addRecord idx r) rr (hasRecord_addRecord_mono idx r rr h)

theorem hasRecord_foldl_add_mem (l : List TRR) :
    ∀ (idx : RecordIndex) (rr : RR), (∃ tr ∈ l, tr.rr = rr) →
      hasRecord (l.foldl addRecord idx) rr = true := by
  induction l with
  | nil => intro idx rr h; obtain ⟨tr, htr, _⟩ := h; cases htr
  | cons r rest ih =>
    intro idx rr h
    obtain ⟨tr, htr, htr2⟩ := h
    rcases List.mem_cons.mp htr with h1 | h1
    · subst h1
      subst htr2
      exact hasRecord_foldl_add_mono rest (addRecord idx tr) tr.rr
        (hasRecord_addRecord_self idx tr)
    · exact ih (addRecord idx r) rr ⟨tr, h1, htr2⟩

theorem mem_tagRecords_content : ∀ (rs : List RR) (b : Nat) (rr : RR), rr ∈ rs →
    ∃ tr ∈ tagRecords b rs, tr.rr = rr := by
  intro rs
  induction rs with
  | nil => intro b rr h; cases h
  | cons r rest ih =>
    intro b rr h
    rcases List.mem_cons.mp h with h1 | h1
    · subst h1
      exact ⟨⟨b, rr⟩, List.mem_cons_self _ _, rfl⟩
    · obtain ⟨tr, htr, htr2⟩ := ih (b + 1) rr h1
      exact ⟨tr, List.mem_cons_of_mem _ htr, htr2⟩

theorem tagRecords_content_mem : ∀ (rs : List RR) (b : Nat) (tr : TRR),
    tr ∈ tagRecords b rs → tr.rr ∈ rs := by
  intro rs
  induction rs with
  | nil => intro b tr h; cases h
  | cons r rest ih =>
    intro b tr h
    rcases List.mem_cons.mp h with h1 | h1
    · subst h1; exact List.mem_cons_self _ _
    · exact List.mem_cons_of_mem _ (ih (b + 1) tr h1)

theorem removeFromBucket_none (rid : Nat) : ∀ (l acc : List TRR),
    removeFromBucket rid acc l = none → ∀ y ∈ l, y.rid ≠ rid := by
  intro l
  induction l with
  | nil => intro acc _ y hy; cases hy
  | cons x rest ih =>
    intro acc h y hy
    by_cases hx : x.rid = rid
    · rw [removeFromBucket, if_pos hx] at h
      cases hlast : rest.getLast? with
      | none => rw [hlast] at h; cases h
      | some last => rw [hlast] at h; cases h
    · rw [removeFromBucket, if_neg hx] at h
      rcases List.mem_cons.mp hy with h1 | h1
      · subst h1; exact hx
      · exact ih (x :: acc) h y h1

theorem dropLast_append_of_getLast? : ∀ {l : List TRR} {a : TRR},
    l.getLast? = some a → l.dropLast ++ [a] = l := by
  intro l
  induction l with
  | nil => intro a h; cases h
  | cons x rest ih =>
    intro a h
    cases rest with
    | nil =>
      rw [List.getLast?_singleton] at h
      injection h with h2
      subst h2
      rfl
    | cons y ys =>
      rw [List.getLast?_cons_cons] at h
      show (x :: (y :: ys).dropLast) ++ [a] = x :: y :: ys
      rw [List.cons_append, ih h]

theorem removeFromBucket_some (rid : Nat) : ∀ (l acc res : List TRR),
    removeFromBucket rid acc l = some res →
    ∃ l1 m l2, l = l1 ++ m :: l2 ∧ m.rid = rid ∧ (∀ y ∈ l1, y.rid ≠ rid) ∧
      List.Perm res (acc.reverse ++ (l1 ++ l2)) := by
  intro l
  induction l with
  | nil => intro acc res h; cases h
  | cons x rest ih =>
    intro acc res h
    by_cases hx : x.rid = rid
    · rw [removeFromBucket, if_pos hx] at h
      cases hlast : rest.getLast? with
      | none =>
        rw [hlast] at h
        injection h with h2
        have hre : rest = [] := List.getLast?_eq_none_iff.mp hlast
        subst hre
        refine ⟨[], x, [], rfl, hx, fun y hy => absurd hy (List.not_mem_nil y), ?_⟩
        rw [← h2]
        simp
      | some last =>
        rw [hlast] at h
        injection h with h2
        refine ⟨[], x, rest, rfl, hx, fun y hy => absurd hy (List.not_mem_nil y), ?_⟩
        rw [← h2]
        simp only [List.nil_append]
        have hrest : rest.dropLast ++ [last] = rest := dropLast_append_of_getLast? hlast
        have hstep : List.Perm (acc.reverse ++ last :: rest.dropLast)
            (acc.reverse ++ (rest.dropLast ++ [last])) :=
          List.Perm.append_left _ ((List.perm_append_singleton _ _).symm)
        rw [hrest] at hstep
        exact hstep
    · rw [removeFromBucket, if_neg hx] at h
      obtain ⟨l1, m, l2, heq, hm, hl1, hperm⟩ := ih (x :: acc) res h
      refine ⟨x :: l1, m, l2, by rw [List.cons_append, heq], hm, ?_, ?_⟩
      · intro y hy
        rcases List.mem_cons.mp hy with h1 | h1
        · subst h1; exact hx
        · exact hl1 y h1
      · have hr : (x :: acc).reverse ++ (l1 ++ l2)
            = acc.reverse ++ ((x :: l1) ++ l2) := by
          simp
        rw [hr] at hperm
        exact hperm

theorem alookup_of_aerase_nil {κ α : Type} [DecidableEq κ] :
    ∀ (l : List (κ × α)) (k k2 : κ), aerase l k = [] → k2 ≠ k →
      alookup l k2 = none := by
  intro l
  induction l with
  | nil => intro k k2 _ _; rfl
  | cons e rest ih =>
    intro k k2 h hne
    by_cases he : e.1 = k
    · rw [aerase_cons_self e rest k he] at h
      have he2 : ¬ e.1 = k2 := by rw [he]; exact fun hc => hne hc.symm
      rw [alookup, if_neg he2]
      exact ih k k2 h hne
    · rw [aerase_cons_ne e rest k he] at h
      cases h

theorem bucketOf_removeRecord (idx : RecordIndex) (r : TRR) (n : Str) (t : Nat) :
    bucketOf (removeRecord idx r) n t =
      if n = r.rr.name ∧ t = r.rr.rrtype then
        (removeFromBucket r.rid [] (bucketOf idx r.rr.name r.rr.rrtype)).getD
          (bucketOf idx r.rr.name r.rr.rrtype)
      else bucketOf idx n t := by
  have hbk : (alookup ((alookup idx r.rr.name).getD []) r.rr.rrtype).getD []
      = bucketOf idx r.rr.name r.rr.rrtype := (bucketOf_eq idx r.rr.name r.rr.rrtype).symm
  simp only [removeRecord]
  split
  · next hrf =>
    rw [hbk] at hrf
    rw [hrf, Option.getD_none]
    split
    · next hc =>
      obtain ⟨hn, ht⟩ := hc
      subst hn; subst ht
      rfl
    · rfl
  · next hrf =>
    rw [hbk] at hrf
    rw [hrf, Option.getD_some]
    by_cases hinner : aerase ((alookup idx r.rr.name).getD []) r.rr.rrtype = []
    · rw [if_pos hinner]
      by_cases hn : n = r.rr.name
      · subst hn
        rw [bucketOf_eq, alookup_aerase_self, Option.getD_none]
        by_cases ht : t = r.rr.rrtype
        · subst ht
          rw [if_pos ⟨rfl, rfl⟩]
          simp [alookup]
        · rw [if_neg (fun hc => ht hc.2), bucketOf_eq,
            alookup_of_aerase_nil _ _ _ hinner ht, Option.getD_none]
          simp [alookup]
      · rw [bucketOf_eq, alookup_aerase_ne _ _ _ hn,
          if_neg (fun hc => hn hc.1), bucketOf_eq]
    · rw [if_neg hinner]
      by_cases hn : n = r.rr.name
      · subst hn
        rw [bucketOf_eq, alookup_aset_self, Option.getD_some]
        by_cases ht : t = r.rr.rrtype
        · subst ht
          rw [if_pos ⟨rfl, rfl⟩, alookup_aerase_self, Option.getD_none]
        · rw [if_neg (fun hc => ht hc.2), alookup_aerase_ne _ _ _ ht, bucketOf_eq]
      · rw [bucketOf_eq, alookup_aset_ne _ _ _ _ hn,
          if_neg (fun hc => hn hc.1), bucketOf_eq]
  · next y ys hrf =>
    rw [hbk] at hrf
    rw [hrf, Option.getD_some]
    by_cases hn : n = r.rr.name
    · subst hn
      rw [bucketOf_eq, alookup_aset_self, Option.getD_some]
      by_cases ht : t = r.rr.rrtype
      · subst ht
        rw [alookup_aset_self, Option.getD_some, if_pos ⟨rfl, rfl⟩]
      · rw [alookup_aset_ne _ _ _ _ ht, if_neg (fun hc => ht hc.2), bucketOf_eq]
    · rw [bucketOf_eq, alookup_aset_ne _ _ _ _ hn,
        if_neg (fun hc => hn hc.1), bucketOf_eq]

theorem mem_bucket_removeRecord (idx : RecordIndex) (r : TRR) (n : Str) (t : Nat)
    (x : TRR) (hx : x ∈ bucketOf idx n t) (hne : x.rid ≠ r.rid) :
    x ∈ bucketOf (removeRecord idx r) n t := by
  rw [bucketOf_removeRecord]
  by_cases hc : n = r.rr.name ∧ t = r.rr.rrtype
  · rw [if_pos hc]
    obtain ⟨hn, ht⟩ := hc
    subst hn; subst ht
    cases hrf : removeFromBucket r.rid [] (bucketOf idx r.rr.name r.rr.rrtype) with
    | none => rw [Option.getD_none]; exact hx
    | some res =>
      rw [Option.getD_some]
      obtain ⟨l1, m, l2, heq, hm, -, hperm⟩ := removeFromBucket_some r.rid _ [] res hrf
      have hxm : x ≠ m := fun hc2 => hne (hc2 ▸ hm)
      have hx2 : x ∈ l1 ++ l2 := by
        rw [heq] at hx
        rcases List.mem_append.mp hx with h1 | h1
        · exact List.mem_append_left _ h1
        · rcases List.mem_cons.mp h1 with h2 | h2
          · exact absurd h2 hxm
          · exact List.mem_append_right _ h2
      exact hperm.mem_iff.mpr (by simpa using hx2)
  · rw [if_neg hc]
    exact hx

theorem occCount_nil (x : TRR) : occCount [] x = 0 := rfl

theorem occCount_addRecord (idx : RecordIndex) (r x : TRR) :
    occCount (addRecord idx r) x = occCount idx x + (if x = r then 1 else 0) := by
  rw [occCount, occCount, bucketOf_addRecord]
  by_cases hc : x.rr.name = r.rr.name ∧ x.rr.rrtype = r.rr.rrtype
  · rw [if_pos hc, List.count_append]
    congr 1
    by_cases hx : x = r
    · subst hx; simp
    · have h2 : ¬ r = x := fun hcc => hx hcc.symm
      simp [List.count_cons, hx, h2]
  · have hxr : ¬ x = r := fun hc2 => hc (by rw [hc2]; exact ⟨rfl, rfl⟩)
    rw [if_neg hc, if_neg hxr, Nat.add_zero]

theorem occCount_foldl_add (l : List TRR) : ∀ (idx : RecordIndex) (x : TRR),
    occCount (l.foldl addRecord idx) x = occCount idx x + l.count x := by
  induction l with
  | nil => intro idx x; simp
  | cons r rest ih =>
    intro idx x
    rw [List.foldl_cons, ih, occCount_addRecord, List.count_cons]
    by_cases hx : x = r
    · subst hx
      simp only [beq_self_eq_true, eq_self_iff_true, if_true]
      omega
    · have h2 : (r == x) = false := by
        simp only [beq_eq_false_iff_ne, ne_eq]
        exact fun hc => hx hc.symm
      simp only [h2, Bool.false_eq_true, if_false, if_neg hx]
      omega

theorem Placed_nil : Placed [] := by
  intro n t x hx
  simp [bucketOf, alookup] at hx

theorem Placed_addRecord {idx : RecordIndex} (h : Placed idx) (r : TRR) :
    Placed (addRecord idx r) := by
  intro n t x hx
  rw [bucketOf_addRecord] at hx
  by_cases hc : n = r.rr.name ∧ t = r.rr.rrtype
  · rw [if_pos hc] at hx
    rcases List.mem_append.mp hx with h1 | h1
    · exact h n t x h1
    · rcases List.mem_singleton.mp h1 with rfl
      exact ⟨hc.1.symm, hc.2.symm⟩
  · rw [if_neg hc] at hx
    exact h n t x hx

theorem Placed_removeRecord {idx : RecordIndex} (h : Placed idx) (r : TRR) :
    Placed (removeRecord idx r) := by
  intro n t x hx
  rw [bucketOf_removeRecord] at hx
  by_cases hc : n = r.rr.name ∧ t = r.rr.rrtype
  · rw [if_pos hc] at hx
    obtain ⟨hn, ht⟩ := hc
    subst hn; subst ht
    cases hrf : removeFromBucket r.rid [] (bucketOf idx r.rr.name r.rr.rrtype) with
    | none =>
      rw [hrf, Option.getD_none] at hx
      exact h _ _ x hx
    | some res =>
      rw [hrf, Option.getD_some] at hx
      obtain ⟨l1, m, l2, heq, -, -, hperm⟩ := removeFromBucket_some r.rid _ [] res hrf
      have hx2 : x ∈ l1 ++ l2 := by simpa using hperm.mem_iff.mp hx
      have hx3 : x ∈ bucketOf idx r.rr.name r.rr.rrtype := by
        rw [heq]
        rcases List.mem_append.mp hx2 with h1 | h1
        · exact List.mem_append_left _ h1
        · exact List.mem_append_right _ (List.mem_cons_of_mem _ h1)
      exact h _ _ x hx3
  · rw [if_neg hc] at hx
    exact h n t x hx

theorem Placed_foldl_add (l : List TRR) : ∀ idx : RecordIndex, Placed idx →
    Placed (l.foldl addRecord idx) := by
  induction l with
  | nil => intro idx h; exact h
  | cons r rest ih => intro idx h; exact ih _ (Placed_addRecord h r)

theorem Placed_foldl_remove (l : List TRR) : ∀ idx : RecordIndex, Placed idx →
    Placed (l.foldl removeRecord idx) := by
  induction l with
  | nil => intro idx h; exact h
  | cons r rest ih => intro idx h; exact ih _ (Placed_removeRecord h r)

theorem occCount_removeRecord (idx : RecordIndex) (r : TRR) (hP : Placed idx)
    (hat : ∀ y ∈ bucketOf idx r.rr.name r.rr.rrtype, y.rid = r.rid → y = r) :
    ∀ x, occCount (removeRecord idx r) x =
      occCount idx x - (if x = r then 1 else 0) := by
  intro x
  rw [occCount, occCount, bucketOf_removeRecord]
  by_cases hc : x.rr.name = r.rr.name ∧ x.rr.rrtype = r.rr.rrtype
  · rw [if_pos hc]
    cases hrf : removeFromBucket r.rid [] (bucketOf idx r.rr.name r.rr.rrtype) with
    | none =>
      rw [Option.getD_none]
      have hnor : ∀ y ∈ bucketOf idx r.rr.name r.rr.rrtype, y.rid ≠ r.rid :=
        removeFromBucket_none r.rid _ [] hrf
      by_cases hx : x = r
      · subst hx
        have hcount : (bucketOf idx x.rr.name x.rr.rrtype).count x = 0 := by
          rw [List.count_eq_zero]
          intro hmem
          rw [hc.1, hc.2] at hmem
          exact hnor x hmem rfl
        rw [hc.1, hc.2]
        omega
      · rw [if_neg hx, hc.1, hc.2, Nat.sub_zero]
    | some res =>
      rw [Option.getD_some]
      obtain ⟨l1, m, l2, heq, hm, -, hperm⟩ := removeFromBucket_some r.rid _ [] res hrf
      have hmem : m ∈ bucketOf idx r.rr.name r.rr.rrtype := by
        rw [heq]
        exact List.mem_append_right _ (List.mem_cons_self _ _)
      have hmr : m = r := hat m hmem hm
      subst hmr
      rw [hperm.count_eq, hc.1, hc.2, heq]
      simp only [List.reverse_nil, List.nil_append, List.count_append, List.count_cons]
      by_cases hx : x = m
      · subst hx
        simp only [beq_self_eq_true, eq_self_iff_true, if_true]
        omega
      · have h2 : (m == x) = false := by
          simp only [beq_eq_false_iff_ne, ne_eq]
          exact fun hc2 => hx hc2.symm
        simp only [h2, Bool.false_eq_true, if_false, if_neg hx]
        omega
  · rw [if_neg hc]
    have hxr : ¬ x = r := fun hc2 => hc (by rw [hc2]; exact ⟨rfl, rfl⟩)
    rw [if_neg hxr, Nat.sub_zero]

theorem removeAll_occ_zero : ∀ (M : List TRR) (idx : RecordIndex),
    Placed idx → (∀ x, occCount idx x ≤ M.count x) → (M.map TRR.rid).Nodup →
    ∀ x, occCount (M.foldl removeRecord idx) x = 0 := by
  intro M
  induction M with
  | nil =>
    intro idx _ hocc _ x
    have := hocc x
    simpa using this
  | cons m M2 ih =>
    intro idx hP hocc hnd x
    rw [List.foldl_cons]
    have hinj : ∀ y ∈ (m :: M2), ∀ z ∈ (m :: M2), y.rid = z.rid → y = z :=
      List.inj_on_of_nodup_map hnd
    have hat : ∀ y ∈ bucketOf idx m.rr.name m.rr.rrtype, y.rid = m.rid → y = m := by
      intro y hy hyid
      have hyP := hP _ _ y hy
      have hyocc : 1 ≤ occCount idx y := by
        rw [occCount, hyP.1, hyP.2]
        exact List.count_pos_iff_mem.mpr hy
      have hyM : y ∈ m :: M2 := by
        have := hocc y
        have h2 : 1 ≤ (m :: M2).count y := le_trans hyocc this
        exact List.count_pos_iff_mem.mp h2
      exact hinj y hyM m (List.mem_cons_self _ _) hyid
    refine ih (removeRecord idx m) (Placed_removeRecord hP m) ?_ ?_ x
    · intro y
      rw [occCount_removeRecord idx m hP hat y]
      have := hocc y
      rw [List.count_cons] at this
      by_cases hy : y = m
      · subst hy
        rw [if_pos rfl]
        simp only [beq_self_eq_true, eq_self_iff_true, if_true] at this
        omega
      · have h2 : (m == y) = false := by
          simp only [beq_eq_false_iff_ne, ne_eq]
          exact fun hc => hy hc.symm
        simp only [h2, Bool.false_eq_true, if_false, Nat.add_zero] at this
        rw [if_neg hy, Nat.sub_zero]
        exact this
    · rw [List.map_cons, List.nodup_cons] at hnd
      exact hnd.2

theorem not_memIndex_of_occ_zero (idx : RecordIndex) (hP : Placed idx)
    (h : ∀ x, occCount idx x = 0) : ∀ x, ¬ memIndex idx x := by
  rintro x ⟨n, t, hx⟩
  have hxP := hP n t x hx
  have : 1 ≤ occCount idx x := by
    rw [occCount, hxP.1, hxP.2]
    exact List.count_pos_iff_mem.mpr hx
  rw [h x] at this
  omega

theorem memIndex_addRecord (idx : RecordIndex) (r x : TRR)
    (h : memIndex (addRecord idx r) x) : x = r ∨ memIndex idx x := by
  obtain ⟨n, t, hx⟩ := h
  rw [bucketOf_addRecord] at hx
  by_cases hc : n = r.rr.name ∧ t = r.rr.rrtype
  · rw [if_pos hc] at hx
    rcases List.mem_append.mp hx with h1 | h1
    · exact Or.inr ⟨n, t, h1⟩
    · exact Or.inl (List.mem_singleton.mp h1)
  · rw [if_neg hc] at hx
    exact Or.inr ⟨n, t, hx⟩

theorem memIndex_foldl_add (l : List TRR) : ∀ (idx : RecordIndex) (x : TRR),
    memIndex (l.foldl addRecord idx) x → x ∈ l ∨ memIndex idx x := by
  induction l with
  | nil => intro idx x h; exact Or.inr h
  | cons r rest ih =>
    intro idx x h
    rcases ih (addRecord idx r) x h with h1 | h1
    · exact Or.inl (List.mem_cons_of_mem _ h1)
    · rcases memIndex_addRecord idx r x h1 with h2 | h2
      · exact Or.inl (h2 ▸ List.mem_cons_self _ _)
      · exact Or.inr h2

theorem tagRecords_rid_ge : ∀ (rs : List RR) (b : Nat) (tr : TRR),
    tr ∈ tagRecords b rs → b ≤ tr.rid := by
  intro rs
  induction rs with
  | nil => intro b tr h; cases h
  | cons r rest ih =>
    intro b tr h
    rcases List.mem_cons.mp h with h1 | h1
    · subst h1; exact le_refl b
    · exact le_trans (Nat.le_succ b) (ih (b + 1) tr h1)

theorem tagRecords_rids_nodup : ∀ (rs : List RR) (b : Nat),
    ((tagRecords b rs).map TRR.rid).Nodup := by
  intro rs
  induction rs with
  | nil => intro b; exact List.nodup_nil
  | cons r rest ih =>
    intro b
    rw [tagRecords, List.map_cons, List.nodup_cons]
    refine ⟨?_, ih (b + 1)⟩
    intro hmem
    rcases List.mem_map.mp hmem with ⟨tr, htr, htr2⟩
    have h2 := tagRecords_rid_ge rest (b + 1) tr htr
    have h3 : tr.rid = b := htr2
    omega

/-! ## Advertise replacement: claim C2 -/

theorem advertise_noop (s : Server) (i : ServiceInstance) (opts : AdvertiseOptions)
    (h : hasRecords s.records (newRecords i opts) = true) :
    advertise s i opts = (s, false) := by
  simp [advertise, h]

theorem alookup_cons_self {κ α : Type} [DecidableEq κ] (k : κ) (v : α)
    (rest : List (κ × α)) : alookup ((k, v) :: rest) k = some v := by
  rw [alookup, if_pos rfl]

theorem aset_cons_self {κ α : Type} [DecidableEq κ] (k : κ) (v v2 : α)
    (rest : List (κ × α)) : aset ((k, v) :: rest) k v2 = (k, v2) :: rest := by
  rw [aset, if_pos rfl]

theorem foldl_cons_eq {α β : Type} (f : β → α → β) (b : β) (a : α) (l : List α) :
    l.foldl f (f b a) = (a :: l).foldl f b := rfl

theorem hasRecords_nil (rs : List RR) (h : rs ≠ []) : hasRecords [] rs = false := by
  cases rs with
  | nil => exact absurd rfl h
  | cons r rest =>
    rw [hasRecords, List.all_cons]
    have h1 : hasRecord [] r = false := rfl
    rw [h1, Bool.false_and]

theorem newRecords_ne_nil (i : ServiceInstance) (opts : AdvertiseOptions) :
    newRecords i opts ≠ [] := by
  simp [newRecords]

theorem tagRecords_rid_lt : ∀ (rs : List RR) (b : Nat) (tr : TRR),
    tr ∈ tagRecords b rs → tr.rid < b + rs.length := by
  intro rs
  induction rs with
  | nil => intro b tr h; cases h
  | cons r rest ih =>
    intro b tr h
    rcases List.mem_cons.mp h with h1 | h1
    · have h2 : tr.rid = b := by rw [h1]
      rw [List.length_cons]
      omega
    · have h2 := ih (b + 1) tr h1
      rw [List.length_cons]
      omega

theorem advertise_noserv (s s1 : Server) (i2 : ServiceInstance)
    (opts2 : AdvertiseOptions)
    (h : hasRecords s.records (newRecords i2 opts2) = false)
    (hrm : (removeInstance s
      (absoluteServiceInstanceName i2.name i2.serviceType i2.domain)).1 = s1)
    (hserv : s1.services = []) :
    advertise s i2 opts2 =
      ({ heap := s1.heap ++ [(s1.nextPtr,
            ⟨⟨s1.nextId + (newRecords i2 opts2).length,
              newServiceTypePTRRecord i2.serviceType i2.domain 0⟩, 1⟩)]
         services := [(absoluteInstanceEnumerationDomain i2.serviceType i2.domain,
            s1.nextPtr)]
         instances := aset s1.instances
            (absoluteServiceInstanceName i2.name i2.serviceType i2.domain)
            ⟨s1.nextPtr, tagRecords s1.nextId (newRecords i2 opts2)⟩
         records := (tagRecords s1.nextId (newRecords i2 opts2)).foldl addRecord
            (addRecord s1.records
              ⟨s1.nextId + (newRecords i2 opts2).length,
                newServiceTypePTRRecord i2.serviceType i2.domain 0⟩)
         nextPtr := s1.nextPtr + 1
         nextId := s1.nextId + (newRecords i2 opts2).length + 1 }, true) := by
  simp only [advertise, h, Bool.false_eq_true, if_false, hrm, hserv, alookup]
  rfl

theorem removeInstance_singleton (p : Nat) (te : TRR) (name key : Str)
    (trecs : List TRR) (R : RecordIndex) (np ni : Nat)
    (hkey : ptrTarget te = key) :
    removeInstance ⟨[(p, ⟨te, 1⟩)], [(key, p)], [(name, ⟨p, trecs⟩)], R, np, ni⟩ name
      = (⟨[(p, ⟨te, 0⟩)], [], [],
          trecs.foldl removeRecord (removeRecord R te), np, ni⟩, true) := by
  have h1 : alookup [(name, InstanceRecords.mk p trecs)] name = some ⟨p, trecs⟩ :=
    alookup_cons_self name (InstanceRecords.mk p trecs) []
  have h2 : alookup [(p, ServiceRecords.mk te 1)] p = some ⟨te, 1⟩ :=
    alookup_cons_self p (ServiceRecords.mk te 1) []
  have h3 : aset [(p, ServiceRecords.mk te 1)] p ⟨te, 0⟩ = [(p, ⟨te, 0⟩)] :=
    aset_cons_self p (ServiceRecords.mk te 1) (ServiceRecords.mk te 0) []
  have h4 : aerase [(key, p)] (ptrTarget te) = [] := by
    rw [hkey, aerase_cons_self (key, p) [] key rfl]
    rfl
  have h5 : aerase [(name, InstanceRecords.mk p trecs)] name = [] := by
    rw [aerase_cons_self (name, InstanceRecords.mk p trecs) [] name rfl]
    rfl
  have hc : ((1 : Int) - 1) = 0 := rfl
  simp only [removeInstance, h1, h2, hc, h3, h4, h5, eq_self_iff_true, if_true]

theorem advertise_replacement_counterexample_aux :
    hasRecords (advertise Server.init sampleInstance noOptions).1.records
      (newRecords sampleInstanceTTL noOptions) = true := by decide

/-- Claim C2 counterexample: `sampleInstanceTTL` differs from
`sampleInstance` only in its TTL field (explicitly 120 seconds instead of
the zero value that is replaced by the same 120-second default), so the
two instances synthesize identical wire-format records; advertising the
first and then the second returns `changed = false` from the second call,
although the claim requires `changed = true` for any modified field. -/
theorem advertise_replacement_counterexample :
    sampleInstanceTTL ≠ sampleInstance ∧
    sampleInstanceTTL.name = sampleInstance.name ∧
    sampleInstanceTTL.serviceType = sampleInstance.serviceType ∧
    sampleInstanceTTL.domain = sampleInstance.domain ∧
    (advertise Server.init sampleInstance noOptions).2 = true ∧
    (advertise (advertise Server.init sampleInstance noOptions).1
      sampleInstanceTTL noOptions).2 = false := by
  refine ⟨by decide, rfl, rfl, rfl, rfl, ?_⟩
  rw [advertise_noop _ _ _ advertise_replacement_counterexample_aux]

/-- Claim C2, amended: advertising `i` and then `i2` with the same
service-instance name returns `changed = true` both times provided some
record synthesized for `i2` is not already indexed byte-for-byte (the
amendment this claim needs: a field change that leaves every synthesized
record identical — such as setting the TTL to its explicit default —
returns `changed = false`); after the second call every record in the
index derives from `i2`: it is `i2`'s service-type PTR or one of
`NewRecords(i2)`, so no record derived from `i` that is not also derived
from `i2` remains. -/
theorem advertise_replacement (i i2 : ServiceInstance) (opts opts2 : AdvertiseOptions)
    (hname : i2.name = i.name) (htype : i2.serviceType = i.serviceType)
    (hdom : i2.domain = i.domain)
    (h2 : hasRecords (advertise Server.init i opts).1.records
      (newRecords i2 opts2) = false) :
    (advertise Server.init i opts).2 = true ∧
    (advertise (advertise Server.init i opts).1 i2 opts2).2 = true ∧
    ∀ x, memIndex (advertise (advertise Server.init i opts).1 i2 opts2).1.records x →
      x.rr = newServiceTypePTRRecord i2.serviceType i2.domain 0 ∨
      x.rr ∈ newRecords i2 opts2 := by
  have h0 : hasRecords Server.init.records (newRecords i opts) = false :=
    hasRecords_nil _ (newRecords_ne_nil i opts)
  have hA := advertise_noserv Server.init Server.init i opts h0 rfl rfl
  have hname2 : absoluteServiceInstanceName i2.name i2.serviceType i2.domain
      = absoluteServiceInstanceName i.name i.serviceType i.domain := by
    rw [hname, htype, hdom]
  -- the sole record batch of the first call
  have hte : ptrTarget ⟨Server.init.nextId + (newRecords i opts).length,
      newServiceTypePTRRecord i.serviceType i.domain 0⟩
      = absoluteInstanceEnumerationDomain i.serviceType i.domain := rfl
  have hrm := removeInstance_singleton Server.init.nextPtr
    ⟨Server.init.nextId + (newRecords i opts).length,
      newServiceTypePTRRecord i.serviceType i.domain 0⟩
    (absoluteServiceInstanceName i.name i.serviceType i.domain)
    (absoluteInstanceEnumerationDomain i.serviceType i.domain)
    (tagRecords Server.init.nextId (newRecords i opts))
    (advertise Server.init i opts).1.records
    (Server.init.nextPtr + 1)
    (Server.init.nextId + (newRecords i opts).length + 1)
    hte
  -- rewrite the first call's state into singleton shape
  have hS1 : (advertise Server.init i opts).1 =
      ⟨[(Server.init.nextPtr, ⟨⟨Server.init.nextId + (newRecords i opts).length,
          newServiceTypePTRRecord i.serviceType i.domain 0⟩, 1⟩)],
        [(absoluteInstanceEnumerationDomain i.serviceType i.domain,
          Server.init.nextPtr)],
        [(absoluteServiceInstanceName i.name i.serviceType i.domain,
          ⟨Server.init.nextPtr, tagRecords Server.init.nextId (newRecords i opts)⟩)],
        (advertise Server.init i opts).1.records,
        Server.init.nextPtr + 1,
        Server.init.nextId + (newRecords i opts).length + 1⟩ := by
    rw [hA]
    rfl
  have hrm2 : (removeInstance (advertise Server.init i opts).1
      (absoluteServiceInstanceName i2.name i2.serviceType i2.domain)).1 =
      ⟨[(Server.init.nextPtr, ⟨⟨Server.init.nextId + (newRecords i opts).length,
          newServiceTypePTRRecord i.serviceType i.domain 0⟩, 0⟩)], [], [],
        (tagRecords Server.init.nextId (newRecords i opts)).foldl removeRecord
          (removeRecord (advertise Server.init i opts).1.records
            ⟨Server.init.nextId + (newRecords i opts).length,
              newServiceTypePTRRecord i.serviceType i.domain 0⟩),
        Server.init.nextPtr + 1,
        Server.init.nextId + (newRecords i opts).length + 1⟩ := by
    rw [hname2]
    conv =>
      lhs
      rw [hS1]
    rw [hrm]
  have hB := advertise_noserv (advertise Server.init i opts).1 _ i2 opts2 h2 hrm2 rfl
  refine ⟨by rw [hA], by rw [hB], ?_⟩
  intro x hx
  rw [hB] at hx
  simp only [] at hx
  -- the removed-records index is empty
  have hRrecords : (advertise Server.init i opts).1.records =
      (tagRecords Server.init.nextId (newRecords i opts)).foldl addRecord
        (addRecord Server.init.records
          ⟨Server.init.nextId + (newRecords i opts).length,
            newServiceTypePTRRecord i.serviceType i.domain 0⟩) := by
    rw [hA]
  have hempty : ∀ y, ¬ memIndex
      ((tagRecords Server.init.nextId (newRecords i opts)).foldl removeRecord
        (removeRecord (advertise Server.init i opts).1.records
          ⟨Server.init.nextId + (newRecords i opts).length,
            newServiceTypePTRRecord i.serviceType i.domain 0⟩)) y := by
    rw [hRrecords]
    rw [foldl_cons_eq addRecord, foldl_cons_eq removeRecord]
    refine not_memIndex_of_occ_zero _ ?_ ?_
    · exact Placed_foldl_remove _ _ (Placed_foldl_add _ _ Placed_nil)
    · refine removeAll_occ_zero _ _ (Placed_foldl_add _ _ Placed_nil) ?_ ?_
      · intro y
        rw [occCount_foldl_add]
        have h6 : occCount Server.init.records y = 0 := occCount_nil y
        omega
      · rw [List.map_cons, List.nodup_cons]
        refine ⟨?_, tagRecords_rids_nodup _ _⟩
        intro hmem
        rcases List.mem_map.mp hmem with ⟨tr, htr, htr2⟩
        have h3 := tagRecords_rid_lt _ _ tr htr
        have h4 : tr.rid = Server.init.nextId + (newRecords i opts).length := htr2
        omega
  rcases memIndex_foldl_add _ _ _ hx with h1 | h1
  · exact Or.inr (tagRecords_content_mem _ _ _ h1)
  · rcases memIndex_addRecord _ _ _ h1 with h3 | h3
    · left
      rw [h3]
    · exact absurd h3 (hempty x)

theorem advertise_replacement_witness :
    (advertise Server.init sampleInstance noOptions).2 = true ∧
    (advertise (advertise Server.init sampleInstance noOptions).1
      sampleInstancePort noOptions).2 = true ∧
    ∀ x, memIndex (advertise (advertise Server.init sampleInstance noOptions).1
        sampleInstancePort noOptions).1.records x →
      x.rr = newServiceTypePTRRecord sampleInstancePort.serviceType
          sampleInstancePort.domain 0 ∨
      x.rr ∈ newRecords sampleInstancePort noOptions :=
  advertise_replacement sampleInstance sampleInstancePort noOptions noOptions
    rfl rfl rfl (by decide)

/-! ## Advertise idempotence: claim C4 -/

theorem advertise_shape (s : Server) (i : ServiceInstance) (opts : AdvertiseOptions)
    (h : hasRecords s.records (newRecords i opts) = false) :
    (advertise s i opts).2 = true ∧
    ∃ nid base, (advertise s i opts).1.records =
      (tagRecords nid (newRecords i opts)).foldl addRecord base := by
  simp only [advertise, h, Bool.false_eq_true, if_false]
  cases alookup (removeInstance s
      (absoluteServiceInstanceName i.name i.serviceType i.domain)).1.services
      (absoluteInstanceEnumerationDomain i.serviceType i.domain) with
  | none => exact ⟨rfl, _, _, rfl⟩
  | some p =>
    cases alookup (removeInstance s
        (absoluteServiceInstanceName i.name i.serviceType i.domain)).1.heap p with
    | none => exact ⟨rfl, _, _, rfl⟩
    | some sr => exact ⟨rfl, _, _, rfl⟩

theorem advertise_then_hasRecords (s : Server) (i : ServiceInstance)
    (opts : AdvertiseOptions)
    (h : hasRecords s.records (newRecords i opts) = false) :
    hasRecords (advertise s i opts).1.records (newRecords i opts) = true := by
  obtain ⟨-, nid, base, heq⟩ := advertise_shape s i opts h
  rw [heq, hasRecords, List.all_eq_true]
  intro rr hrr
  exact hasRecord_foldl_add_mem _ base rr (mem_tagRecords_content _ nid rr hrr)

/-- Claim C4: advertising the same instance twice with the same options
returns `changed = true` from the first call (whenever the instance's
records are not already indexed) and `changed = false` from the second,
and the second call leaves the server — its record index included —
exactly as the first call left it.  The comparison underlying the
idempotence check is wire-format record equality (`hasRecord` compares
record contents), not pointer identity: the second call's freshly
allocated records are equal as records while being distinct
allocations. -/
theorem advertise_idempotent (s : Server) (i : ServiceInstance)
    (opts : AdvertiseOptions) :
    (hasRecords s.records (newRecords i opts) = false →
      (advertise s i opts).2 = true)
    ∧ (advertise (advertise s i opts).1 i opts).2 = false
    ∧ (advertise (advertise s i opts).1 i opts).1 = (advertise s i opts).1 := by
  by_cases h : hasRecords s.records (newRecords i opts) = true
  · have h1 : advertise s i opts = (s, false) := advertise_noop s i opts h
    have h3 : advertise (advertise s i opts).1 i opts = (s, false) := by
      rw [h1]
      exact advertise_noop s i opts h
    refine ⟨fun hc => ?_, by rw [h3], by rw [h3, h1]⟩
    rw [h] at hc
    cases hc
  · have hf : hasRecords s.records (newRecords i opts) = false :=
      Bool.eq_false_iff.mpr h
    have h2 := advertise_then_hasRecords s i opts hf
    have h3 : advertise (advertise s i opts).1 i opts = ((advertise s i opts).1, false) :=
      advertise_noop (advertise s i opts).1 i opts h2
    exact ⟨fun _ => (advertise_shape s i opts hf).1, by rw [h3], by rw [h3]⟩

theorem advertise_idempotent_witness :
    (advertise Server.init sampleInstance sampleOptions).2 = true :=
  (advertise_idempotent Server.init sampleInstance sampleOptions).1 rfl

/-! ## The service-type reference-counting invariant: claim C1 -/

theorem aerase_of_not_mem {κ α : Type} [DecidableEq κ] {l : List (κ × α)} {k : κ}
    (h : k ∉ l.map Prod.fst) : aerase l k = l := by
  induction l with
  | nil => rfl
  | cons e rest ih =>
    simp only [List.map_cons, List.mem_cons] at h
    push_neg at h
    rw [aerase_cons_ne e rest k (fun hc => h.1 hc.symm), ih h.2]

theorem perm_cons_erase_alookup {κ α : Type} [DecidableEq κ] {l : List (κ × α)}
    {k : κ} {v : α} (hnd : (l.map Prod.fst).Nodup) (h : alookup l k = some v) :
    List.Perm l ((k, v) :: aerase l k) := by
  induction l with
  | nil => cases h
  | cons e rest ih =>
    rw [List.map_cons, List.nodup_cons] at hnd
    by_cases he : e.1 = k
    · rw [alookup, if_pos he] at h
      injection h with h2
      have hke : k ∉ rest.map Prod.fst := he ▸ hnd.1
      rw [aerase_cons_self e rest k he, aerase_of_not_mem hke]
      have he2 : (k, v) = e := by
        obtain ⟨e1, e2⟩ := e
        rw [← he, ← h2]
      rw [he2]
    · rw [alookup, if_neg he] at h
      rw [aerase_cons_ne e rest k he]
      exact ((ih hnd.2 h).cons e).trans (List.Perm.swap (k, v) e _)

theorem perm_shuffle {α : Type} (A B C : List α) :
    List.Perm (A ++ (B ++ C)) (B ++ (A ++ C)) := by
  rw [← List.append_assoc, ← List.append_assoc]
  exact List.Perm.append_right C List.perm_append_comm

theorem refCountL_cons (e : Str × InstanceRecords) (l : List (Str × InstanceRecords))
    (p : Nat) : refCountL (e :: l) p =
      refCountL l p + (if e.2.srPtr = p then 1 else 0) := by
  by_cases h : e.2.srPtr = p
  · simp [refCountL, List.filter_cons, h]
  · simp [refCountL, List.filter_cons, h]

theorem refCountL_append (l1 l2 : List (Str × InstanceRecords)) (p : Nat) :
    refCountL (l1 ++ l2) p = refCountL l1 p + refCountL l2 p := by
  rw [refCountL, refCountL, refCountL, List.filter_append, List.length_append]

theorem refCountL_perm {l1 l2 : List (Str × InstanceRecords)}
    (h : List.Perm l1 l2) (p : Nat) : refCountL l1 p = refCountL l2 p :=
  (h.filter _).length_eq

theorem refCountL_eq_zero {l : List (Str × InstanceRecords)} {p : Nat} :
    refCountL l p = 0 ↔ ∀ e ∈ l, ¬ e.2.srPtr = p := by
  induction l with
  | nil =>
    constructor
    · intro _ e he
      exact absurd he (List.not_mem_nil e)
    · intro _
      rfl
  | cons e rest ih =>
    rw [refCountL_cons]
    by_cases h : e.2.srPtr = p
    · rw [if_pos h]
      constructor
      · intro hc
        omega
      · intro hc
        exact absurd h ((List.forall_mem_cons.mp hc).1)
    · rw [if_neg h, Nat.add_zero, ih, List.forall_mem_cons]
      exact ⟨fun hc => ⟨h, hc⟩, fun hc => hc.2⟩

theorem filterMap_congr_mem {α β : Type} {l : List α} {f g : α → Option β}
    (h : ∀ e ∈ l, f e = g e) : l.filterMap f = l.filterMap g := by
  induction l with
  | nil => rfl
  | cons e rest ih =>
    rw [List.filterMap_cons, List.filterMap_cons, h e (List.mem_cons_self _ _),
      ih (fun x hx => h x (List.mem_cons_of_mem _ hx))]

theorem liveTEsL_cons (heap : List (Nat × ServiceRecords)) (d : Str) (p : Nat)
    (sv : List (Str × Nat)) (sr : ServiceRecords) (h : alookup heap p = some sr) :
    liveTEsL heap ((d, p) :: sv) = sr.typeEnumRecord :: liveTEsL heap sv := by
  rw [liveTEsL, List.filterMap_cons]
  simp [h, liveTEsL]

theorem liveTEsL_perm (heap : List (Nat × ServiceRecords))
    {sv1 sv2 : List (Str × Nat)} (h : List.Perm sv1 sv2) :
    List.Perm (liveTEsL heap sv1) (liveTEsL heap sv2) :=
  h.filterMap _

theorem liveTEsL_congr {heap1 heap2 : List (Nat × ServiceRecords)}
    {sv : List (Str × Nat)}
    (h : ∀ e ∈ sv, (alookup heap1 e.2).map (fun sr => sr.typeEnumRecord)
      = (alookup heap2 e.2).map (fun sr => sr.typeEnumRecord)) :
    liveTEsL heap1 sv = liveTEsL heap2 sv :=
  filterMap_congr_mem h

theorem liveTEsL_append (heap : List (Nat × ServiceRecords))
    (sv1 sv2 : List (Str × Nat)) :
    liveTEsL heap (sv1 ++ sv2) = liveTEsL heap sv1 ++ liveTEsL heap sv2 :=
  List.filterMap_append sv1 sv2 _

theorem instRecsL_cons (e : Str × InstanceRecords) (l : List (Str × InstanceRecords)) :
    instRecsL (e :: l) = e.2.records ++ instRecsL l := rfl

theorem instRecsL_perm {l1 l2 : List (Str × InstanceRecords)}
    (h : List.Perm l1 l2) : List.Perm (instRecsL l1) (instRecsL l2) :=
  List.Perm.flatMap_right _ h

theorem instRecsL_append (l1 l2 : List (Str × InstanceRecords)) :
    instRecsL (l1 ++ l2) = instRecsL l1 ++ instRecsL l2 :=
  List.flatMap_append l1 l2 _

theorem occCount_foldl_remove_count : ∀ (M : List TRR) (idx : RecordIndex)
    (C : List TRR), Placed idx → (∀ x, occCount idx x = (M ++ C).count x) →
    ((M ++ C).map TRR.rid).Nodup →
    ∀ x, occCount (M.foldl removeRecord idx) x = C.count x := by
  intro M
  induction M with
  | nil =>
    intro idx C _ hocc _ x
    simpa using hocc x
  | cons m M2 ih =>
    intro idx C hP hocc hnd x
    rw [List.foldl_cons]
    have hinj : ∀ y ∈ (m :: M2) ++ C, ∀ z ∈ (m :: M2) ++ C, y.rid = z.rid → y = z :=
      List.inj_on_of_nodup_map hnd
    have hat : ∀ y ∈ bucketOf idx m.rr.name m.rr.rrtype, y.rid = m.rid → y = m := by
      intro y hy hyid
      have hyP := hP _ _ y hy
      have hyocc : 1 ≤ occCount idx y := by
        rw [occCount, hyP.1, hyP.2]
        exact List.count_pos_iff.mpr hy
      have hyM : y ∈ (m :: M2) ++ C := by
        rw [hocc y] at hyocc
        exact List.count_pos_iff.mp hyocc
      exact hinj y hyM m (List.mem_append_left _ (List.mem_cons_self _ _)) hyid
    refine ih (removeRecord idx m) C (Placed_removeRecord hP m) ?_ ?_ x
    · intro y
      rw [occCount_removeRecord idx m hP hat y]
      have h2 := hocc y
      rw [List.cons_append, List.count_cons] at h2
      by_cases hy : y = m
      · subst hy
        simp only [beq_self_eq_true, eq_self_iff_true, if_true] at h2 ⊢
        omega
      · have h3 : (m == y) = false := by
          simp only [beq_eq_false_iff_ne, ne_eq]
          exact fun hc => hy hc.symm
        simp only [h3, Bool.false_eq_true, if_false, Nat.add_zero] at h2
        rw [if_neg hy, Nat.sub_zero]
        exact h2
    · rw [List.cons_append, List.map_cons, List.nodup_cons] at hnd
      exact hnd.2

theorem memIndex_of_occ_pos (idx : RecordIndex) (x : TRR)
    (h : 1 ≤ occCount idx x) : memIndex idx x := by
  rw [occCount] at h
  exact ⟨_, _, List.count_pos_iff.mp h⟩

theorem occ_pos_of_memIndex (idx : RecordIndex) (hP : Placed idx) (x : TRR)
    (h : memIndex idx x) : 1 ≤ occCount idx x := by
  obtain ⟨n, t, hx⟩ := h
  have hxP := hP n t x hx
  rw [occCount, hxP.1, hxP.2]
  exact List.count_pos_iff.mpr hx

theorem removeInstance_instances_none (s : Server) (nm : Str) :
    alookup (removeInstance s nm).1.instances nm = none := by
  cases h : alookup s.instances nm with
  | none =>
    simp only [removeInstance, h]
  | some ir =>
    cases h2 : alookup s.heap ir.srPtr with
    | none =>
      simp only [removeInstance, h, h2]
      exact alookup_aerase_self _ _
    | some sr =>
      simp only [removeInstance, h, h2]
      exact alookup_aerase_self _ _

theorem Inv_remove_case_zero (s : Server) (nm : Str) (ir : InstanceRecords)
    (sr : ServiceRecords) (d : Str) (h : Inv s)
    (hi : alookup s.instances nm = some ir)
    (hd : alookup s.services d = some ir.srPtr)
    (hsr : alookup s.heap ir.srPtr = some sr)
    (hpt : ptrTarget sr.typeEnumRecord = d)
    (hone : refCount s ir.srPtr = 1) :
    Inv ⟨aset s.heap ir.srPtr ⟨sr.typeEnumRecord, sr.instanceCount - 1⟩,
      aerase s.services (ptrTarget sr.typeEnumRecord),
      aerase s.instances nm,
      ir.records.foldl removeRecord (removeRecord s.records sr.typeEnumRecord),
      s.nextPtr, s.nextId⟩ := by
  rw [hpt]
  have hperm_inst : List.Perm s.instances ((nm, ir) :: aerase s.instances nm) :=
    perm_cons_erase_alookup h.ikeys hi
  have hperm_serv : List.Perm s.services ((d, ir.srPtr) :: aerase s.services d) :=
    perm_cons_erase_alookup h.skeys hd
  have hrc : ∀ p, refCountL s.instances p =
      refCountL (aerase s.instances nm) p + (if ir.srPtr = p then 1 else 0) :=
    fun p => (refCountL_perm hperm_inst p).trans (refCountL_cons _ _ p)
  have hone2 : refCountL s.instances ir.srPtr = 1 := hone
  have hrc0 : refCountL (aerase s.instances nm) ir.srPtr = 0 := by
    have h1 := hrc ir.srPtr
    rw [if_pos rfl] at h1
    omega
  have hnone : ∀ e ∈ aerase s.instances nm, ¬ e.2.srPtr = ir.srPtr :=
    refCountL_eq_zero.mp hrc0
  have hfcong : ∀ e ∈ aerase s.services d,
      (alookup (aset s.heap ir.srPtr
          ⟨sr.typeEnumRecord, sr.instanceCount - 1⟩) e.2).map
        (fun sr0 => sr0.typeEnumRecord)
      = (alookup s.heap e.2).map (fun sr0 => sr0.typeEnumRecord) := by
    intro e _
    by_cases hp : e.2 = ir.srPtr
    · rw [hp, alookup_aset_self, hsr]
      rfl
    · rw [alookup_aset_ne s.heap ir.srPtr e.2 _ hp]
  have hLT : liveTEsL (aset s.heap ir.srPtr
        ⟨sr.typeEnumRecord, sr.instanceCount - 1⟩) (aerase s.services d)
      = liveTEsL s.heap (aerase s.services d) :=
    liveTEsL_congr hfcong
  have hA := liveTEsL_perm s.heap hperm_serv
  rw [liveTEsL_cons s.heap d ir.srPtr (aerase s.services d) sr hsr] at hA
  have hB := instRecsL_perm hperm_inst
  simp only [instRecsL_cons] at hB
  have p2 : List.Perm (contents s)
      ((sr.typeEnumRecord :: ir.records) ++
        (liveTEsL s.heap (aerase s.services d) ++
          instRecsL (aerase s.instances nm))) := by
    have p1 : List.Perm (liveTEsL s.heap s.services ++ instRecsL s.instances)
        ((sr.typeEnumRecord :: liveTEsL s.heap (aerase s.services d)) ++
          (ir.records ++ instRecsL (aerase s.instances nm))) := hA.append hB
    refine List.Perm.trans p1 ?_
    rw [List.cons_append, List.cons_append]
    exact List.Perm.cons _ (perm_shuffle _ _ _)
  have hCeq : contents ⟨aset s.heap ir.srPtr
        ⟨sr.typeEnumRecord, sr.instanceCount - 1⟩,
      aerase s.services d, aerase s.instances nm,
      ir.records.foldl removeRecord (removeRecord s.records sr.typeEnumRecord),
      s.nextPtr, s.nextId⟩
      = liveTEsL s.heap (aerase s.services d) ++
        instRecsL (aerase s.instances nm) := by
    simp only [contents, liveTEs, instRecs]
    rw [hLT]
  have hndMC : ((sr.typeEnumRecord :: ir.records).map TRR.rid ++
      (liveTEsL s.heap (aerase s.services d) ++
        instRecsL (aerase s.instances nm)).map TRR.rid).Nodup := by
    have h1 := (p2.map TRR.rid).nodup h.hnd
    rwa [List.map_append] at h1
  refine { ikeys := keys_aerase_nodup h.ikeys nm,
           skeys := keys_aerase_nodup h.skeys d,
           hptr := ?_, hlive := ?_, hdead := ?_, hocc := ?_,
           hplaced := Placed_foldl_remove ir.records _
             (Placed_removeRecord h.hplaced sr.typeEnumRecord),
           hnd := ?_, hrid := ?_, hheaprid := ?_, hpbound := ?_ }
  · intro e he
    have he2 : e ∈ aerase s.instances nm := he
    obtain ⟨hemem, hene⟩ := mem_aerase_iff.mp he2
    obtain ⟨d0, hd0⟩ := h.hptr e hemem
    have hne : e.2.srPtr ≠ ir.srPtr := hnone e he2
    have hd0d : d0 ≠ d := by
      intro hc
      rw [hc, hd] at hd0
      exact hne (by injection hd0 with h2; exact h2.symm)
    refine ⟨d0, ?_⟩
    show alookup (aerase s.services d) d0 = some e.2.srPtr
    rw [alookup_aerase_ne s.services d d0 hd0d]
    exact hd0
  · intro d0 p0 hp0
    have hp0x : alookup (aerase s.services d) d0 = some p0 := hp0
    have hd0d : d0 ≠ d := by
      intro hc
      rw [hc, alookup_aerase_self] at hp0x
      cases hp0x
    rw [alookup_aerase_ne s.services d d0 hd0d] at hp0x
    obtain ⟨sr0, hsr0, hcnt0, hge0, hpt0⟩ := h.hlive d0 p0 hp0x
    have hp0ne : p0 ≠ ir.srPtr := by
      intro hc
      rw [hc, hsr] at hsr0
      injection hsr0 with h2
      rw [← h2] at hpt0
      rw [hpt] at hpt0
      exact hd0d hpt0.symm
    refine ⟨sr0, ?_, ?_, ?_, hpt0⟩
    · show alookup (aset s.heap ir.srPtr
          ⟨sr.typeEnumRecord, sr.instanceCount - 1⟩) p0 = some sr0
      rw [alookup_aset_ne s.heap ir.srPtr p0 _ hp0ne]
      exact hsr0
    · show sr0.instanceCount = (refCountL (aerase s.instances nm) p0 : Int)
      have h3 := hrc p0
      rw [if_neg (fun hc => hp0ne hc.symm)] at h3
      have h4 : refCountL s.instances p0 = refCount s p0 := rfl
      rw [hcnt0]
      omega
    · show 1 ≤ refCountL (aerase s.instances nm) p0
      have h3 := hrc p0
      rw [if_neg (fun hc => hp0ne hc.symm)] at h3
      have h4 : refCountL s.instances p0 = refCount s p0 := rfl
      omega
  · intro p0 sr0 hp0 hdd
    have hp0x : alookup (aset s.heap ir.srPtr
        ⟨sr.typeEnumRecord, sr.instanceCount - 1⟩) p0 = some sr0 := hp0
    have hddx : ∀ d0, alookup (aerase s.services d) d0 ≠ some p0 := hdd
    by_cases hpe : p0 = ir.srPtr
    · subst hpe
      rw [alookup_aset_self] at hp0x
      injection hp0x with h2
      constructor
      · show refCountL (aerase s.instances nm) ir.srPtr = 0
        exact hrc0
      · rw [hCeq, ← h2]
        intro hmem
        exact (List.nodup_append.mp hndMC).2.2
          (List.mem_map.mpr ⟨sr.typeEnumRecord, List.mem_cons_self _ _, rfl⟩) hmem
    · rw [alookup_aset_ne s.heap ir.srPtr p0 _ hpe] at hp0x
      have holddead : ∀ d0, alookup s.services d0 ≠ some p0 := by
        intro d0 hc
        by_cases hdm : d0 = d
        · rw [hdm, hd] at hc
          injection hc with h2
          exact hpe h2.symm
        · exact hddx d0 (by rw [alookup_aerase_ne s.services d d0 hdm]; exact hc)
      obtain ⟨hrc00, hnid⟩ := h.hdead p0 sr0 hp0x holddead
      constructor
      · show refCountL (aerase s.instances nm) p0 = 0
        have h3 := hrc p0
        have h4 : refCountL s.instances p0 = 0 := hrc00
        omega
      · rw [hCeq]
        intro hmem
        apply hnid
        have h5 : sr0.typeEnumRecord.rid ∈
            ((sr.typeEnumRecord :: ir.records) ++
              (liveTEsL s.heap (aerase s.services d) ++
                instRecsL (aerase s.instances nm))).map TRR.rid := by
          rw [List.map_append]
          exact List.mem_append_right _ hmem
        exact (p2.map TRR.rid).mem_iff.mpr h5
  · intro x
    rw [hCeq]
    exact occCount_foldl_remove_count (sr.typeEnumRecord :: ir.records) s.records _
      h.hplaced (fun y => (h.hocc y).trans (p2.count_eq y))
      ((p2.map TRR.rid).nodup h.hnd) x
  · rw [hCeq]
    exact (List.nodup_append.mp hndMC).2.1
  · intro x hx
    rw [hCeq] at hx
    show x.rid < s.nextId
    exact h.hrid x (p2.mem_iff.mpr (List.mem_append_right _ hx))
  · intro e he
    have hex : e ∈ aset s.heap ir.srPtr
        ⟨sr.typeEnumRecord, sr.instanceCount - 1⟩ := he
    show e.2.typeEnumRecord.rid < s.nextId
    rcases mem_aset hex with h1 | h1
    · rw [h1]
      show sr.typeEnumRecord.rid < s.nextId
      exact h.hheaprid (ir.srPtr, sr) (alookup_mem hsr)
    · exact h.hheaprid e h1
  · intro e he
    have hex : e ∈ aset s.heap ir.srPtr
        ⟨sr.typeEnumRecord, sr.instanceCount - 1⟩ := he
    show e.1 < s.nextPtr
    rcases mem_aset hex with h1 | h1
    · rw [h1]
      show ir.srPtr < s.nextPtr
      exact h.hpbound (ir.srPtr, sr) (alookup_mem hsr)
    · exact h.hpbound e h1

theorem Inv_remove_case_pos (s : Server) (nm : Str) (ir : InstanceRecords)
    (sr : ServiceRecords) (d : Str) (h : Inv s)
    (hi : alookup s.instances nm = some ir)
    (hd : alookup s.services d = some ir.srPtr)
    (hsr : alookup s.heap ir.srPtr = some sr)
    (hcnt : sr.instanceCount = (refCount s ir.srPtr : Int))
    (htwo : 2 ≤ refCount s ir.srPtr) :
    Inv ⟨aset s.heap ir.srPtr ⟨sr.typeEnumRecord, sr.instanceCount - 1⟩,
      s.services,
      aerase s.instances nm,
      ir.records.foldl removeRecord s.records,
      s.nextPtr, s.nextId⟩ := by
  have hperm_inst : List.Perm s.instances ((nm, ir) :: aerase s.instances nm) :=
    perm_cons_erase_alookup h.ikeys hi
  have hrc : ∀ p, refCountL s.instances p =
      refCountL (aerase s.instances nm) p + (if ir.srPtr = p then 1 else 0) :=
    fun p => (refCountL_perm hperm_inst p).trans (refCountL_cons _ _ p)
  have hfcong : ∀ e ∈ s.services,
      (alookup (aset s.heap ir.srPtr
          ⟨sr.typeEnumRecord, sr.instanceCount - 1⟩) e.2).map
        (fun sr0 => sr0.typeEnumRecord)
      = (alookup s.heap e.2).map (fun sr0 => sr0.typeEnumRecord) := by
    intro e _
    by_cases hp : e.2 = ir.srPtr
    · rw [hp, alookup_aset_self, hsr]
      rfl
    · rw [alookup_aset_ne s.heap ir.srPtr e.2 _ hp]
  have hLT : liveTEsL (aset s.heap ir.srPtr
        ⟨sr.typeEnumRecord, sr.instanceCount - 1⟩) s.services
      = liveTEsL s.heap s.services :=
    liveTEsL_congr hfcong
  have hB := instRecsL_perm hperm_inst
  simp only [instRecsL_cons] at hB
  have p2 : List.Perm (contents s)
      (ir.records ++ (liveTEsL s.heap s.services ++
        instRecsL (aerase s.instances nm))) := by
    have p1 : List.Perm (liveTEsL s.heap s.services ++ instRecsL s.instances)
        (liveTEsL s.heap s.services ++
          (ir.records ++ instRecsL (aerase s.instances nm))) :=
      List.Perm.append_left _ hB
    exact List.Perm.trans p1 (perm_shuffle _ _ _)
  have hCeq : contents ⟨aset s.heap ir.srPtr
        ⟨sr.typeEnumRecord, sr.instanceCount - 1⟩,
      s.services, aerase s.instances nm,
      ir.records.foldl removeRecord s.records,
      s.nextPtr, s.nextId⟩
      = liveTEsL s.heap s.services ++ instRecsL (aerase s.instances nm) := by
    simp only [contents, liveTEs, instRecs]
    rw [hLT]
  have hndMC : (ir.records.map TRR.rid ++
      (liveTEsL s.heap s.services ++
        instRecsL (aerase s.instances nm)).map TRR.rid).Nodup := by
    have h1 := (p2.map TRR.rid).nodup h.hnd
    rwa [List.map_append] at h1
  refine { ikeys := keys_aerase_nodup h.ikeys nm,
           skeys := h.skeys,
           hptr := ?_, hlive := ?_, hdead := ?_, hocc := ?_,
           hplaced := Placed_foldl_remove ir.records _ h.hplaced,
           hnd := ?_, hrid := ?_, hheaprid := ?_, hpbound := ?_ }
  · intro e he
    have he2 : e ∈ aerase s.instances nm := he
    obtain ⟨hemem, -⟩ := mem_aerase_iff.mp he2
    exact h.hptr e hemem
  · intro d0 p0 hp0
    have hp0x : alookup s.services d0 = some p0 := hp0
    obtain ⟨sr0, hsr0, hcnt0, hge0, hpt0⟩ := h.hlive d0 p0 hp0x
    by_cases hpe : p0 = ir.srPtr
    · subst hpe
      have h2 : sr0 = sr := by
        rw [hsr] at hsr0
        injection hsr0 with h3
        exact h3.symm
      refine ⟨⟨sr.typeEnumRecord, sr.instanceCount - 1⟩, ?_, ?_, ?_, ?_⟩
      · show alookup (aset s.heap ir.srPtr
            ⟨sr.typeEnumRecord, sr.instanceCount - 1⟩) ir.srPtr
          = some ⟨sr.typeEnumRecord, sr.instanceCount - 1⟩
        exact alookup_aset_self _ _ _
      · show sr.instanceCount - 1 = (refCountL (aerase s.instances nm) ir.srPtr : Int)
        have h3 := hrc ir.srPtr
        rw [if_pos rfl] at h3
        have h4 : refCountL s.instances ir.srPtr = refCount s ir.srPtr := rfl
        rw [hcnt]
        omega
      · show 1 ≤ refCountL (aerase s.instances nm) ir.srPtr
        have h3 := hrc ir.srPtr
        rw [if_pos rfl] at h3
        have h4 : refCountL s.instances ir.srPtr = refCount s ir.srPtr := rfl
        omega
      · show ptrTarget sr.typeEnumRecord = d0
        rw [h2] at hpt0
        exact hpt0
    · refine ⟨sr0, ?_, ?_, ?_, hpt0⟩
      · show alookup (aset s.heap ir.srPtr
            ⟨sr.typeEnumRecord, sr.instanceCount - 1⟩) p0 = some sr0
        rw [alookup_aset_ne s.heap ir.srPtr p0 _ hpe]
        exact hsr0
      · show sr0.instanceCount = (refCountL (aerase s.instances nm) p0 : Int)
        have h3 := hrc p0
        rw [if_neg (fun hc => hpe hc.symm)] at h3
        have h4 : refCountL s.instances p0 = refCount s p0 := rfl
        rw [hcnt0]
        omega
      · show 1 ≤ refCountL (aerase s.instances nm) p0
        have h3 := hrc p0
        rw [if_neg (fun hc => hpe hc.symm)] at h3
        have h4 : refCountL s.instances p0 = refCount s p0 := rfl
        omega
  · intro p0 sr0 hp0 hdd
    have hp0x : alookup (aset s.heap ir.srPtr
        ⟨sr.typeEnumRecord, sr.instanceCount - 1⟩) p0 = some sr0 := hp0
    have hddx : ∀ d0, alookup s.services d0 ≠ some p0 := hdd
    have hpe : p0 ≠ ir.srPtr := by
      intro hc
      exact hddx d (by rw [hc]; exact hd)
    rw [alookup_aset_ne s.heap ir.srPtr p0 _ hpe] at hp0x
    obtain ⟨hrc00, hnid⟩ := h.hdead p0 sr0 hp0x hddx
    constructor
    · show refCountL (aerase s.instances nm) p0 = 0
      have h3 := hrc p0
      have h4 : refCountL s.instances p0 = 0 := hrc00
      omega
    · rw [hCeq]
      intro hmem
      apply hnid
      have h5 : sr0.typeEnumRecord.rid ∈
          (ir.records ++ (liveTEsL s.heap s.services ++
            instRecsL (aerase s.instances nm))).map TRR.rid := by
        rw [List.map_append]
        exact List.mem_append_right _ hmem
      exact (p2.map TRR.rid).mem_iff.mpr h5
  · intro x
    rw [hCeq]
    exact occCount_foldl_remove_count ir.records s.records _
      h.hplaced (fun y => (h.hocc y).trans (p2.count_eq y))
      ((p2.map TRR.rid).nodup h.hnd) x
  · rw [hCeq]
    exact (List.nodup_append.mp hndMC).2.1
  · intro x hx
    rw [hCeq] at hx
    show x.rid < s.nextId
    exact h.hrid x (p2.mem_iff.mpr (List.mem_append_right _ hx))
  · intro e he
    have hex : e ∈ aset s.heap ir.srPtr
        ⟨sr.typeEnumRecord, sr.instanceCount - 1⟩ := he
    show e.2.typeEnumRecord.rid < s.nextId
    rcases mem_aset hex with h1 | h1
    · rw [h1]
      show sr.typeEnumRecord.rid < s.nextId
      exact h.hheaprid (ir.srPtr, sr) (alookup_mem hsr)
    · exact h.hheaprid e h1
  · intro e he
    have hex : e ∈ aset s.heap ir.srPtr
        ⟨sr.typeEnumRecord, sr.instanceCount - 1⟩ := he
    show e.1 < s.nextPtr
    rcases mem_aset hex with h1 | h1
    · rw [h1]
      show ir.srPtr < s.nextPtr
      exact h.hpbound (ir.srPtr, sr) (alookup_mem hsr)
    · exact h.hpbound e h1

theorem Inv_removeInstance (s : Server) (nm : Str) (h : Inv s) :
    Inv (removeInstance s nm).1 := by
  cases hi : alookup s.instances nm with
  | none =>
    simp only [removeInstance, hi]
    exact h
  | some ir =>
    have hmem : (nm, ir) ∈ s.instances := alookup_mem hi
    obtain ⟨d, hd0⟩ := h.hptr (nm, ir) hmem
    have hd : alookup s.services d = some ir.srPtr := hd0
    obtain ⟨sr, hsr, hcnt, hge, hpt⟩ := h.hlive d ir.srPtr hd
    simp only [removeInstance, hi, hsr]
    by_cases hone : refCount s ir.srPtr = 1
    · have hcond : sr.instanceCount - 1 = 0 := by
        rw [hcnt, hone]
        decide
      rw [if_pos hcond, if_pos hcond]
      exact Inv_remove_case_zero s nm ir sr d h hi hd hsr hpt hone
    · have hcond : ¬ (sr.instanceCount - 1 = 0) := by
        rw [hcnt]
        intro hc
        have h2 : refCount s ir.srPtr = 1 := by omega
        exact hone h2
      rw [if_neg hcond, if_neg hcond]
      have htwo : 2 ≤ refCount s ir.srPtr := by omega
      exact Inv_remove_case_pos s nm ir sr d h hi hd hsr hcnt htwo

theorem Inv_init : Inv Server.init :=
  { ikeys := List.nodup_nil
    skeys := List.nodup_nil
    hptr := fun e he => absurd he (List.not_mem_nil e)
    hlive := fun _ _ hp => Option.noConfusion hp
    hdead := fun _ _ hp => Option.noConfusion hp
    hocc := fun _ => rfl
    hplaced := Placed_nil
    hnd := List.nodup_nil
    hrid := fun x hx => absurd hx (List.not_mem_nil x)
    hheaprid := fun e he => absurd he (List.not_mem_nil e)
    hpbound := fun e he => absurd he (List.not_mem_nil e) }

theorem Inv_advertise_existing (t : Server) (nm enumD : Str) (recs : List RR)
    (p : Nat) (sr : ServiceRecords) (h : Inv t)
    (hnm : alookup t.instances nm = none)
    (hsv : alookup t.services enumD = some p)
    (hsr : alookup t.heap p = some sr) :
    Inv ⟨aset t.heap p ⟨sr.typeEnumRecord, sr.instanceCount + 1⟩,
      t.services,
      aset t.instances nm ⟨p, tagRecords t.nextId recs⟩,
      (tagRecords t.nextId recs).foldl addRecord t.records,
      t.nextPtr, t.nextId + recs.length⟩ := by
  obtain ⟨sr1, hsr1, hcnt1, hge1, hpt1⟩ := h.hlive enumD p hsv
  have hsreq : sr1 = sr := by
    rw [hsr] at hsr1
    injection hsr1 with h2
    exact h2.symm
  have hcnt1x : sr.instanceCount = (refCount t p : Int) := by
    rw [← hsreq]
    exact hcnt1
  have hinstapp : aset t.instances nm ⟨p, tagRecords t.nextId recs⟩
      = t.instances ++ [(nm, ⟨p, tagRecords t.nextId recs⟩)] :=
    aset_eq_append _ _ _ hnm
  have hrc2 : ∀ q, refCountL (aset t.instances nm ⟨p, tagRecords t.nextId recs⟩) q
      = refCountL t.instances q + (if p = q then 1 else 0) := by
    intro q
    rw [hinstapp, refCountL_append, refCountL_cons]
    show refCountL t.instances q + (0 + (if p = q then 1 else 0))
      = refCountL t.instances q + (if p = q then 1 else 0)
    rw [Nat.zero_add]
  have hfcong : ∀ e ∈ t.services,
      (alookup (aset t.heap p ⟨sr.typeEnumRecord, sr.instanceCount + 1⟩) e.2).map
        (fun sr0 => sr0.typeEnumRecord)
      = (alookup t.heap e.2).map (fun sr0 => sr0.typeEnumRecord) := by
    intro e _
    by_cases hp : e.2 = p
    · rw [hp, alookup_aset_self, hsr]
      rfl
    · rw [alookup_aset_ne t.heap p e.2 _ hp]
  have hLT : liveTEsL (aset t.heap p ⟨sr.typeEnumRecord, sr.instanceCount + 1⟩)
      t.services = liveTEsL t.heap t.services := liveTEsL_congr hfcong
  have hIR : instRecsL (aset t.instances nm ⟨p, tagRecords t.nextId recs⟩)
      = instRecsL t.instances ++ tagRecords t.nextId recs := by
    rw [hinstapp, instRecsL_append, instRecsL_cons]
    show instRecsL t.instances ++ (tagRecords t.nextId recs ++ ([] : List TRR)) = _
    rw [List.append_nil]
  have hCeq : contents ⟨aset t.heap p ⟨sr.typeEnumRecord, sr.instanceCount + 1⟩,
      t.services,
      aset t.instances nm ⟨p, tagRecords t.nextId recs⟩,
      (tagRecords t.nextId recs).foldl addRecord t.records,
      t.nextPtr, t.nextId + recs.length⟩
      = liveTEsL t.heap t.services ++
        (instRecsL t.instances ++ tagRecords t.nextId recs) := by
    simp only [contents, liveTEs, instRecs]
    rw [hLT, hIR]
  have hCeq2 : liveTEsL t.heap t.services ++
      (instRecsL t.instances ++ tagRecords t.nextId recs)
      = contents t ++ tagRecords t.nextId recs := by
    rw [← List.append_assoc]
    rfl
  have htagbound : ∀ x ∈ tagRecords t.nextId recs,
      t.nextId ≤ x.rid ∧ x.rid < t.nextId + recs.length :=
    fun x hx => ⟨tagRecords_rid_ge recs t.nextId x hx,
      tagRecords_rid_lt recs t.nextId x hx⟩
  have hcontbound : ∀ a ∈ (contents t).map TRR.rid, a < t.nextId := by
    intro a ha
    obtain ⟨x, hx, hxa⟩ := List.mem_map.mp ha
    rw [← hxa]
    exact h.hrid x hx
  have hndnew : ((contents t ++ tagRecords t.nextId recs).map TRR.rid).Nodup := by
    rw [List.map_append, List.nodup_append]
    refine ⟨h.hnd, tagRecords_rids_nodup recs t.nextId, ?_⟩
    intro a ha hb
    obtain ⟨x, hx, hxa⟩ := List.mem_map.mp hb
    have h6 := htagbound x hx
    have h7 := hcontbound a ha
    omega
  refine { ikeys := keys_aset_nodup h.ikeys nm ⟨p, tagRecords t.nextId recs⟩,
           skeys := h.skeys,
           hptr := ?_, hlive := ?_, hdead := ?_, hocc := ?_,
           hplaced := Placed_foldl_add _ _ h.hplaced,
           hnd := ?_, hrid := ?_, hheaprid := ?_, hpbound := ?_ }
  · intro e he
    have hex : e ∈ t.instances ++ [(nm, ⟨p, tagRecords t.nextId recs⟩)] := by
      rw [← hinstapp]
      exact he
    rcases List.mem_append.mp hex with h1 | h1
    · exact h.hptr e h1
    · rcases List.mem_singleton.mp h1 with rfl
      exact ⟨enumD, hsv⟩
  · intro d0 p0 hp0
    have hp0x : alookup t.services d0 = some p0 := hp0
    obtain ⟨sr0, hsr0, hcnt0, hge0, hpt0⟩ := h.hlive d0 p0 hp0x
    by_cases hpe : p0 = p
    · subst hpe
      have h2 : sr0 = sr := by
        rw [hsr] at hsr0
        injection hsr0 with h3
        exact h3.symm
      refine ⟨⟨sr.typeEnumRecord, sr.instanceCount + 1⟩, ?_, ?_, ?_, ?_⟩
      · show alookup (aset t.heap p0 ⟨sr.typeEnumRecord, sr.instanceCount + 1⟩) p0
          = some ⟨sr.typeEnumRecord, sr.instanceCount + 1⟩
        exact alookup_aset_self _ _ _
      · show sr.instanceCount + 1 =
          (refCountL (aset t.instances nm ⟨p0, tagRecords t.nextId recs⟩) p0 : Int)
        rw [hrc2 p0, if_pos rfl, hcnt1x]
        have h4 : refCountL t.instances p0 = refCount t p0 := rfl
        omega
      · show 1 ≤ refCountL (aset t.instances nm ⟨p0, tagRecords t.nextId recs⟩) p0
        rw [hrc2 p0, if_pos rfl]
        omega
      · show ptrTarget sr.typeEnumRecord = d0
        rw [h2] at hpt0
        exact hpt0
    · refine ⟨sr0, ?_, ?_, ?_, hpt0⟩
      · show alookup (aset t.heap p ⟨sr.typeEnumRecord, sr.instanceCount + 1⟩) p0
          = some sr0
        rw [alookup_aset_ne t.heap p p0 _ hpe]
        exact hsr0
      · show sr0.instanceCount =
          (refCountL (aset t.instances nm ⟨p, tagRecords t.nextId recs⟩) p0 : Int)
        rw [hrc2 p0, if_neg (fun hc => hpe hc.symm), hcnt0]
        have h4 : refCountL t.instances p0 = refCount t p0 := rfl
        omega
      · show 1 ≤ refCountL (aset t.instances nm ⟨p, tagRecords t.nextId recs⟩) p0
        rw [hrc2 p0, if_neg (fun hc => hpe hc.symm)]
        have h4 : refCountL t.instances p0 = refCount t p0 := rfl
        omega
  · intro p0 sr0 hp0 hdd
    have hp0x : alookup (aset t.heap p ⟨sr.typeEnumRecord, sr.instanceCount + 1⟩) p0
        = some sr0 := hp0
    have hddx : ∀ d0, alookup t.services d0 ≠ some p0 := hdd
    have hpe : p0 ≠ p := by
      intro hc
      exact hddx enumD (by rw [hc]; exact hsv)
    rw [alookup_aset_ne t.heap p p0 _ hpe] at hp0x
    obtain ⟨hrc00, hnid⟩ := h.hdead p0 sr0 hp0x hddx
    constructor
    · show refCountL (aset t.instances nm ⟨p, tagRecords t.nextId recs⟩) p0 = 0
      rw [hrc2 p0, if_neg (fun hc => hpe hc.symm)]
      have h4 : refCountL t.instances p0 = refCount t p0 := rfl
      omega
    · rw [hCeq, hCeq2, List.map_append]
      intro hmemb
      rcases List.mem_append.mp hmemb with h1 | h1
      · exact hnid h1
      · obtain ⟨x, hx, hxa⟩ := List.mem_map.mp h1
        have h6 := htagbound x hx
        have h7 : sr0.typeEnumRecord.rid < t.nextId :=
          h.hheaprid (p0, sr0) (alookup_mem hp0x)
        omega
  · intro x
    rw [hCeq, hCeq2]
    show occCount ((tagRecords t.nextId recs).foldl addRecord t.records) x
      = (contents t ++ tagRecords t.nextId recs).count x
    rw [occCount_foldl_add, h.hocc x, List.count_append]
  · rw [hCeq, hCeq2]
    exact hndnew
  · intro x hx
    rw [hCeq, hCeq2] at hx
    show x.rid < t.nextId + recs.length
    rcases List.mem_append.mp hx with h1 | h1
    · have h6 := h.hrid x h1
      omega
    · exact (htagbound x h1).2
  · intro e he
    have hex : e ∈ aset t.heap p ⟨sr.typeEnumRecord, sr.instanceCount + 1⟩ := he
    show e.2.typeEnumRecord.rid < t.nextId + recs.length
    rcases mem_aset hex with h1 | h1
    · rw [h1]
      show sr.typeEnumRecord.rid < t.nextId + recs.length
      have h6 : sr.typeEnumRecord.rid < t.nextId :=
        h.hheaprid (p, sr) (alookup_mem hsr)
      omega
    · have h6 := h.hheaprid e h1
      omega
  · intro e he
    have hex : e ∈ aset t.heap p ⟨sr.typeEnumRecord, sr.instanceCount + 1⟩ := he
    show e.1 < t.nextPtr
    rcases mem_aset hex with h1 | h1
    · rw [h1]
      show p < t.nextPtr
      exact h.hpbound (p, sr) (alookup_mem hsr)
    · exact h.hpbound e h1

theorem Inv_advertise_fresh_entry (t : Server) (nm enumD : Str) (recs : List RR)
    (rrte : RR) (h : Inv t)
    (hnm : alookup t.instances nm = none)
    (hsv : alookup t.services enumD = none)
    (hptE : ptrTarget ⟨t.nextId + recs.length, rrte⟩ = enumD) :
    Inv ⟨t.heap ++ [(t.nextPtr, ⟨⟨t.nextId + recs.length, rrte⟩, 1⟩)],
      aset t.services enumD t.nextPtr,
      aset t.instances nm ⟨t.nextPtr, tagRecords t.nextId recs⟩,
      (tagRecords t.nextId recs).foldl addRecord
        (addRecord t.records ⟨t.nextId + recs.length, rrte⟩),
      t.nextPtr + 1, t.nextId + recs.length + 1⟩ := by
  have hpfresh : alookup t.heap t.nextPtr = none := by
    rw [alookup_eq_none_iff]
    intro hc
    obtain ⟨e, he, hee⟩ := List.mem_map.mp hc
    have h6 := h.hpbound e he
    omega
  have hlookupnew : alookup
      (t.heap ++ [(t.nextPtr, ⟨⟨t.nextId + recs.length, rrte⟩, 1⟩)]) t.nextPtr
      = some ⟨⟨t.nextId + recs.length, rrte⟩, 1⟩ := by
    rw [alookup_append_none t.heap _ t.nextPtr hpfresh]
    exact alookup_cons_self _ _ _
  have hsvapp : aset t.services enumD t.nextPtr
      = t.services ++ [(enumD, t.nextPtr)] := aset_eq_append _ _ _ hsv
  have hinstapp : aset t.instances nm ⟨t.nextPtr, tagRecords t.nextId recs⟩
      = t.instances ++ [(nm, ⟨t.nextPtr, tagRecords t.nextId recs⟩)] :=
    aset_eq_append _ _ _ hnm
  have hrc2 : ∀ q, refCountL (aset t.instances nm
        ⟨t.nextPtr, tagRecords t.nextId recs⟩) q
      = refCountL t.instances q + (if t.nextPtr = q then 1 else 0) := by
    intro q
    rw [hinstapp, refCountL_append, refCountL_cons]
    show refCountL t.instances q + (0 + (if t.nextPtr = q then 1 else 0))
      = refCountL t.instances q + (if t.nextPtr = q then 1 else 0)
    rw [Nat.zero_add]
  have hz : refCountL t.instances t.nextPtr = 0 := by
    rw [refCountL_eq_zero]
    intro e he hc
    obtain ⟨d1, hd1⟩ := h.hptr e he
    obtain ⟨sr1, hsr1, -, -, -⟩ := h.hlive d1 e.2.srPtr hd1
    have h6 : e.2.srPtr < t.nextPtr := h.hpbound (e.2.srPtr, sr1) (alookup_mem hsr1)
    omega
  have hsvkeys : ∀ e ∈ t.services, ∃ sr0, alookup t.heap e.2 = some sr0 := by
    intro e he
    obtain ⟨e1, e2⟩ := e
    have h1 : alookup t.services e1 = some e2 := alookup_of_mem_nodup h.skeys he
    obtain ⟨sr0, hsr0, -, -, -⟩ := h.hlive e1 e2 h1
    exact ⟨sr0, hsr0⟩
  have hfcong : ∀ e ∈ t.services,
      (alookup (t.heap ++ [(t.nextPtr, ⟨⟨t.nextId + recs.length, rrte⟩, 1⟩)])
        e.2).map (fun sr0 => sr0.typeEnumRecord)
      = (alookup t.heap e.2).map (fun sr0 => sr0.typeEnumRecord) := by
    intro e he
    obtain ⟨sr0, hsr0⟩ := hsvkeys e he
    rw [alookup_append_some t.heap _ e.2 sr0 hsr0, hsr0]
  have hLT : liveTEsL (t.heap ++ [(t.nextPtr, ⟨⟨t.nextId + recs.length, rrte⟩, 1⟩)])
      t.services = liveTEsL t.heap t.services := liveTEsL_congr hfcong
  have hLTnew : liveTEsL
      (t.heap ++ [(t.nextPtr, ⟨⟨t.nextId + recs.length, rrte⟩, 1⟩)])
      (t.services ++ [(enumD, t.nextPtr)])
      = liveTEsL t.heap t.services ++ [⟨t.nextId + recs.length, rrte⟩] := by
    rw [liveTEsL_append, hLT, liveTEsL_cons _ enumD t.nextPtr [] _ hlookupnew]
    rfl
  have hIR : instRecsL (aset t.instances nm ⟨t.nextPtr, tagRecords t.nextId recs⟩)
      = instRecsL t.instances ++ tagRecords t.nextId recs := by
    rw [hinstapp, instRecsL_append, instRecsL_cons]
    show instRecsL t.instances ++ (tagRecords t.nextId recs ++ ([] : List TRR)) = _
    rw [List.append_nil]
  have hCeq : contents ⟨t.heap ++
        [(t.nextPtr, ⟨⟨t.nextId + recs.length, rrte⟩, 1⟩)],
      aset t.services enumD t.nextPtr,
      aset t.instances nm ⟨t.nextPtr, tagRecords t.nextId recs⟩,
      (tagRecords t.nextId recs).foldl addRecord
        (addRecord t.records ⟨t.nextId + recs.length, rrte⟩),
      t.nextPtr + 1, t.nextId + recs.length + 1⟩
      = (liveTEsL t.heap t.services ++ [⟨t.nextId + recs.length, rrte⟩]) ++
        (instRecsL t.instances ++ tagRecords t.nextId recs) := by
    simp only [contents, liveTEs, instRecs]
    rw [hsvapp, hLTnew, hIR]
  have hpermC : List.Perm
      ((liveTEsL t.heap t.services ++ [⟨t.nextId + recs.length, rrte⟩]) ++
        (instRecsL t.instances ++ tagRecords t.nextId recs))
      (contents t ++
        (⟨t.nextId + recs.length, rrte⟩ :: tagRecords t.nextId recs)) := by
    rw [List.append_assoc, List.singleton_append]
    have hR : contents t ++
        (⟨t.nextId + recs.length, rrte⟩ :: tagRecords t.nextId recs)
        = liveTEsL t.heap t.services ++ (instRecsL t.instances ++
          (⟨t.nextId + recs.length, rrte⟩ :: tagRecords t.nextId recs)) := by
      rw [← List.append_assoc]
      rfl
    rw [hR]
    exact List.Perm.append_left _ List.perm_middle.symm
  have hcontbound : ∀ a ∈ (contents t).map TRR.rid, a < t.nextId := by
    intro a ha
    obtain ⟨x, hx, hxa⟩ := List.mem_map.mp ha
    rw [← hxa]
    exact h.hrid x hx
  have hndnew : ((contents t ++
      (⟨t.nextId + recs.length, rrte⟩ :: tagRecords t.nextId recs)).map
        TRR.rid).Nodup := by
    rw [List.map_append, List.nodup_append]
    refine ⟨h.hnd, ?_, ?_⟩
    · rw [List.map_cons, List.nodup_cons]
      refine ⟨?_, tagRecords_rids_nodup recs t.nextId⟩
      intro hc
      obtain ⟨x, hx, hxa⟩ := List.mem_map.mp hc
      have h6 := tagRecords_rid_lt recs t.nextId x hx
      have h7 : x.rid = t.nextId + recs.length := hxa
      omega
    · intro a ha hb
      have h7 := hcontbound a ha
      rw [List.map_cons] at hb
      rcases List.mem_cons.mp hb with h1 | h1
      · have h8 : a = t.nextId + recs.length := h1
        omega
      · obtain ⟨x, hx, hxa⟩ := List.mem_map.mp h1
        have h6 := tagRecords_rid_ge recs t.nextId x hx
        omega
  refine { ikeys := keys_aset_nodup h.ikeys nm ⟨t.nextPtr, tagRecords t.nextId recs⟩,
           skeys := keys_aset_nodup h.skeys enumD t.nextPtr,
           hptr := ?_, hlive := ?_, hdead := ?_, hocc := ?_,
           hplaced := Placed_foldl_add _ _ (Placed_addRecord h.hplaced _),
           hnd := ?_, hrid := ?_, hheaprid := ?_, hpbound := ?_ }
  · intro e he
    have hex : e ∈ t.instances ++ [(nm, ⟨t.nextPtr, tagRecords t.nextId recs⟩)] := by
      rw [← hinstapp]
      exact he
    rcases List.mem_append.mp hex with h1 | h1
    · obtain ⟨d0, hd0⟩ := h.hptr e h1
      have hd0ne : d0 ≠ enumD := by
        intro hc
        rw [hc, hsv] at hd0
        cases hd0
      refine ⟨d0, ?_⟩
      show alookup (aset t.services enumD t.nextPtr) d0 = some e.2.srPtr
      rw [alookup_aset_ne t.services enumD d0 _ hd0ne]
      exact hd0
    · rcases List.mem_singleton.mp h1 with rfl
      refine ⟨enumD, ?_⟩
      show alookup (aset t.services enumD t.nextPtr) enumD = some t.nextPtr
      exact alookup_aset_self _ _ _
  · intro d0 p0 hp0
    have hp0x : alookup (aset t.services enumD t.nextPtr) d0 = some p0 := hp0
    by_cases hde : d0 = enumD
    · subst hde
      rw [alookup_aset_self] at hp0x
      injection hp0x with h2
      subst h2
      refine ⟨⟨⟨t.nextId + recs.length, rrte⟩, 1⟩, ?_, ?_, ?_, ?_⟩
      · show alookup
            (t.heap ++ [(t.nextPtr, ⟨⟨t.nextId + recs.length, rrte⟩, 1⟩)])
            t.nextPtr = some ⟨⟨t.nextId + recs.length, rrte⟩, 1⟩
        exact hlookupnew
      · show (1 : Int) = (refCountL (aset t.instances nm
            ⟨t.nextPtr, tagRecords t.nextId recs⟩) t.nextPtr : Int)
        rw [hrc2 t.nextPtr, if_pos rfl, hz]
        rfl
      · show 1 ≤ refCountL (aset t.instances nm
            ⟨t.nextPtr, tagRecords t.nextId recs⟩) t.nextPtr
        rw [hrc2 t.nextPtr, if_pos rfl, hz]
      · show ptrTarget (⟨t.nextId + recs.length, rrte⟩ : TRR) = d0
        exact hptE
    · rw [alookup_aset_ne t.services enumD d0 _ hde] at hp0x
      obtain ⟨sr0, hsr0, hcnt0, hge0, hpt0⟩ := h.hlive d0 p0 hp0x
      have hpne : p0 ≠ t.nextPtr := by
        intro hc
        have h6 : p0 < t.nextPtr := h.hpbound (p0, sr0) (alookup_mem hsr0)
        omega
      refine ⟨sr0, ?_, ?_, ?_, hpt0⟩
      · show alookup
            (t.heap ++ [(t.nextPtr, ⟨⟨t.nextId + recs.length, rrte⟩, 1⟩)]) p0
          = some sr0
        exact alookup_append_some t.heap _ p0 sr0 hsr0
      · show sr0.instanceCount = (refCountL (aset t.instances nm
            ⟨t.nextPtr, tagRecords t.nextId recs⟩) p0 : Int)
        rw [hrc2 p0, if_neg (fun hc => hpne hc.symm), hcnt0]
        have h4 : refCountL t.instances p0 = refCount t p0 := rfl
        omega
      · show 1 ≤ refCountL (aset t.instances nm
            ⟨t.nextPtr, tagRecords t.nextId recs⟩) p0
        rw [hrc2 p0, if_neg (fun hc => hpne hc.symm)]
        have h4 : refCountL t.instances p0 = refCount t p0 := rfl
        omega
  · intro p0 sr0 hp0 hdd
    have hp0x : alookup
        (t.heap ++ [(t.nextPtr, ⟨⟨t.nextId + recs.length, rrte⟩, 1⟩)]) p0
        = some sr0 := hp0
    have hddx : ∀ d0, alookup (aset t.services enumD t.nextPtr) d0 ≠ some p0 := hdd
    cases hold : alookup t.heap p0 with
    | some s0 =>
      rw [alookup_append_some t.heap _ p0 s0 hold] at hp0x
      injection hp0x with h2
      subst h2
      have holddead : ∀ d0, alookup t.services d0 ≠ some p0 := by
        intro d0 hc
        by_cases hde : d0 = enumD
        · rw [hde, hsv] at hc
          cases hc
        · exact hddx d0 (by rw [alookup_aset_ne t.services enumD d0 _ hde]; exact hc)
      obtain ⟨hrc00, hnid⟩ := h.hdead p0 s0 hold holddead
      have hpne : p0 ≠ t.nextPtr := by
        intro hc
        have h6 : p0 < t.nextPtr := h.hpbound (p0, s0) (alookup_mem hold)
        omega
      constructor
      · show refCountL (aset t.instances nm
            ⟨t.nextPtr, tagRecords t.nextId recs⟩) p0 = 0
        rw [hrc2 p0, if_neg (fun hc => hpne hc.symm)]
        have h4 : refCountL t.instances p0 = 0 := hrc00
        omega
      · rw [hCeq]
        intro hmemb
        have hmem3 : s0.typeEnumRecord.rid ∈ (contents t).map TRR.rid ∨
            s0.typeEnumRecord.rid ∈
              ((⟨t.nextId + recs.length, rrte⟩ : TRR) ::
                tagRecords t.nextId recs).map TRR.rid := by
          have h9 := (hpermC.map TRR.rid).mem_iff.mp hmemb
          rw [List.map_append] at h9
          exact List.mem_append.mp h9
        have h7 : s0.typeEnumRecord.rid < t.nextId :=
          h.hheaprid (p0, s0) (alookup_mem hold)
        rcases hmem3 with h1 | h1
        · exact hnid h1
        · rw [List.map_cons] at h1
          rcases List.mem_cons.mp h1 with h2 | h2
          · have h8 : s0.typeEnumRecord.rid = t.nextId + recs.length := h2
            omega
          · obtain ⟨x, hx, hxa⟩ := List.mem_map.mp h2
            have h6 := tagRecords_rid_ge recs t.nextId x hx
            omega
    | none =>
      rw [alookup_append_none t.heap _ p0 hold] at hp0x
      have hpp : t.nextPtr = p0 := by
        by_cases hc : t.nextPtr = p0
        · exact hc
        · rw [alookup, if_neg hc] at hp0x
          cases hp0x
      exfalso
      exact hddx enumD (by rw [← hpp]; exact alookup_aset_self _ _ _)
  · intro x
    rw [hCeq]
    show occCount ((tagRecords t.nextId recs).foldl addRecord
        (addRecord t.records ⟨t.nextId + recs.length, rrte⟩)) x
      = ((liveTEsL t.heap t.services ++
            [(⟨t.nextId + recs.length, rrte⟩ : TRR)]) ++
          (instRecsL t.instances ++ tagRecords t.nextId recs)).count x
    rw [hpermC.count_eq x, occCount_foldl_add, occCount_addRecord, h.hocc x,
      List.count_append, List.count_cons]
    by_cases hxe : x = (⟨t.nextId + recs.length, rrte⟩ : TRR)
    · subst hxe
      simp only [beq_self_eq_true, eq_self_iff_true, if_true]
      omega
    · have h3 : ((⟨t.nextId + recs.length, rrte⟩ : TRR) == x) = false := by
        simp only [beq_eq_false_iff_ne, ne_eq]
        exact fun hc => hxe hc.symm
      simp only [h3, Bool.false_eq_true, if_false, if_neg hxe]
      omega
  · rw [hCeq]
    exact ((hpermC.map TRR.rid).symm).nodup hndnew
  · intro x hx
    rw [hCeq] at hx
    show x.rid < t.nextId + recs.length + 1
    have h9 := hpermC.mem_iff.mp hx
    rcases List.mem_append.mp h9 with h1 | h1
    · have h6 := h.hrid x h1
      omega
    · rcases List.mem_cons.mp h1 with h2 | h2
      · have h8 : x.rid = t.nextId + recs.length := by rw [h2]
        omega
      · have h6 := tagRecords_rid_lt recs t.nextId x h2
        omega
  · intro e he
    have hex : e ∈ t.heap ++
        [(t.nextPtr, ⟨⟨t.nextId + recs.length, rrte⟩, 1⟩)] := he
    show e.2.typeEnumRecord.rid < t.nextId + recs.length + 1
    rcases List.mem_append.mp hex with h1 | h1
    · have h6 := h.hheaprid e h1
      omega
    · rcases List.mem_singleton.mp h1 with rfl
      show t.nextId + recs.length < t.nextId + recs.length + 1
      omega
  · intro e he
    have hex : e ∈ t.heap ++
        [(t.nextPtr, ⟨⟨t.nextId + recs.length, rrte⟩, 1⟩)] := he
    show e.1 < t.nextPtr + 1
    rcases List.mem_append.mp hex with h1 | h1
    · have h6 := h.hpbound e h1
      omega
    · rcases List.mem_singleton.mp h1 with rfl
      show t.nextPtr < t.nextPtr + 1
      omega

theorem Inv_advertise (s : Server) (inst : ServiceInstance)
    (opts : AdvertiseOptions) (h : Inv s) : Inv (advertise s inst opts).1 := by
  cases hx : hasRecords s.records (newRecords inst opts) with
  | true =>
    rw [advertise_noop s inst opts hx]
    exact h
  | false =>
    have h1 : Inv (removeInstance s (absoluteServiceInstanceName inst.name
        inst.serviceType inst.domain)).1 := Inv_removeInstance s _ h
    have hnm : alookup (removeInstance s (absoluteServiceInstanceName inst.name
        inst.serviceType inst.domain)).1.instances
        (absoluteServiceInstanceName inst.name inst.serviceType inst.domain)
        = none := removeInstance_instances_none s _
    cases hsv : alookup (removeInstance s (absoluteServiceInstanceName inst.name
        inst.serviceType inst.domain)).1.services
        (absoluteInstanceEnumerationDomain inst.serviceType inst.domain) with
    | some p =>
      obtain ⟨sr, hsr, -, -, -⟩ := h1.hlive _ p hsv
      simp only [advertise, hx, Bool.false_eq_true, if_false, hsv, hsr]
      exact Inv_advertise_existing _ _ _ (newRecords inst opts) p sr h1 hnm hsv hsr
    | none =>
      simp only [advertise, hx, Bool.false_eq_true, if_false, hsv]
      exact Inv_advertise_fresh_entry _
        (absoluteServiceInstanceName inst.name inst.serviceType inst.domain)
        (absoluteInstanceEnumerationDomain inst.serviceType inst.domain)
        (newRecords inst opts)
        (newServiceTypePTRRecord inst.serviceType inst.domain 0) h1 hnm hsv rfl

theorem Inv_runOps (ops : List Op) : Inv (runOps ops) := by
  suffices hgen : ∀ (l : List Op) (s : Server), Inv s → Inv (l.foldl applyOp s) by
    exact hgen ops Server.init Inv_init
  intro l
  induction l with
  | nil =>
    intro s hs
    exact hs
  | cons op rest ih =>
    intro s hs
    rw [List.foldl_cons]
    refine ih (applyOp s op) ?_
    cases op with
    | adv i o => exact Inv_advertise s i o hs
    | unadv i => exact Inv_removeInstance s _ hs

/-- Claim C1 (service-type PTR reference counting), formalized over the
tracked allocations: in every state reachable from the zero server by a
sequence of Advertise and Unadvertise calls, (a) every service entry
points to a heap struct whose stored count equals the number of
advertised instances referencing it, that count is at least one, the
entry's key is the struct's own PTR target, and the struct's
type-enumeration PTR allocation is present in the record index; and
(b) a heap struct no service entry names (a service type whose last
instance was unadvertised) is referenced by no instance and its
type-enumeration PTR allocation is absent from the index.  So a type
PTR is indexed exactly while its instance count is at least one. -/
theorem type_ptr_reference_counting (ops : List Op) :
    (∀ d p, alookup (runOps ops).services d = some p →
      ∃ sr, alookup (runOps ops).heap p = some sr ∧
        sr.instanceCount = (refCount (runOps ops) p : Int) ∧
        1 ≤ refCount (runOps ops) p ∧
        ptrTarget sr.typeEnumRecord = d ∧
        memIndex (runOps ops).records sr.typeEnumRecord) ∧
    (∀ p sr, alookup (runOps ops).heap p = some sr →
      (∀ d, alookup (runOps ops).services d ≠ some p) →
      refCount (runOps ops) p = 0 ∧
      ¬ memIndex (runOps ops).records sr.typeEnumRecord) := by
  have h := Inv_runOps ops
  constructor
  · intro d p hp
    obtain ⟨sr, hsr, hcnt, hge, hptt⟩ := h.hlive d p hp
    refine ⟨sr, hsr, hcnt, hge, hptt, ?_⟩
    have hmem : sr.typeEnumRecord ∈ contents (runOps ops) := by
      apply List.mem_append_left
      exact List.mem_filterMap.mpr ⟨(d, p), alookup_mem hp, by simp [hsr]⟩
    have h1 : 1 ≤ occCount (runOps ops).records sr.typeEnumRecord := by
      rw [h.hocc]
      exact List.count_pos_iff.mpr hmem
    exact memIndex_of_occ_pos _ _ h1
  · intro p sr hp hdd
    obtain ⟨hrc, hrid2⟩ := h.hdead p sr hp hdd
    refine ⟨hrc, ?_⟩
    intro hmem
    have h1 : 1 ≤ occCount (runOps ops).records sr.typeEnumRecord :=
      occ_pos_of_memIndex _ h.hplaced _ hmem
    rw [h.hocc] at h1
    have h2 : sr.typeEnumRecord ∈ contents (runOps ops) :=
      List.count_pos_iff.mp h1
    exact hrid2 (List.mem_map.mpr ⟨_, h2, rfl⟩)

theorem type_ptr_reference_counting_witness :
    ∃ sr, alookup (runOps [Op.adv sampleInstance noOptions]).heap 0 = some sr ∧
      sr.instanceCount =
        (refCount (runOps [Op.adv sampleInstance noOptions]) 0 : Int) ∧
      1 ≤ refCount (runOps [Op.adv sampleInstance noOptions]) 0 ∧
      ptrTarget sr.typeEnumRecord = absoluteInstanceEnumerationDomain
        sampleInstance.serviceType sampleInstance.domain ∧
      memIndex (runOps [Op.adv sampleInstance noOptions]).records
        sr.typeEnumRecord :=
  (type_ptr_reference_counting [Op.adv sampleInstance noOptions]).1
    (absoluteInstanceEnumerationDomain sampleInstance.serviceType
      sampleInstance.domain) 0 (by decide)

theorem resolver_query_iteration_witness :
    queryServers none [none, some ⟨2, []⟩, some ⟨0, []⟩, some ⟨3, []⟩] =
        (some ⟨0, []⟩, true, none) ∧
      queryServers none [none, some ⟨2, []⟩] = (none, false, none) :=
  ⟨(resolver_query_iteration [none, some ⟨2, []⟩, some ⟨0, []⟩, some ⟨3, []⟩]
      [none, some ⟨2, []⟩] [some ⟨3, []⟩] ⟨0, []⟩).2 rfl (Or.inl rfl) (by decide),
    (resolver_query_iteration [none, some ⟨2, []⟩] [] [] ⟨0, []⟩).1 (by decide)⟩

end Dissolve
